import Mathlib

/-!
Verification of the discord-forum ingestion core against its specification.

The Lean definitions below are a shallow embedding of the TypeScript
sources of the repository:

* `src/discord-bot/src/lib/smartSync.ts` — the smart sync orchestrator
  (cursor handling, mode selection, thread/post upserts, reply counts);
* `src/unnamed/part_007` (`lib/sync.ts`) — the historical sync
  (`syncSpecificThread`, `syncMessage`, `updateReplyReferences`);
* `src/unnamed/part_004` (`lib/sanitizer.ts`) — `sanitizeContent` and
  `convertToHtml`;
* `src/discord-bot/src/lib/staffLoader.ts` / `lib/hash.ts` — `hashUserId`
  and `validatePepper`;
* the startup sequence of `src/index.ts` (`src/unnamed/part_004`, second
  `main`).

Timestamps are modelled as natural numbers, database rows as Lean
structures, and fallible external calls (database queries, Discord
fetches) as explicit outcome parameters.  Regular expressions are
modelled by hand-rolled matchers that follow the greedy/backtracking
semantics of the JavaScript engine on the concrete patterns used by the
source; each pass of the sanitizer is a separate scan, applied in the
exact order of the source.  Module-level JavaScript regex objects carry
a `lastIndex` that survives across calls; the embedding models the
fresh-state (per-process-call) semantics, which is the behaviour on all
inputs considered here.
-/

/-! ## Cursor store and sync orchestrator (`smartSync.ts`)

`smartSync` (lines 33-89) reads the persisted sync state, selects full
or delta mode, runs the traversal, and finally calls `updateSyncState`
(lines 111-124), which writes `{last_sync: new Date().toISOString(),
is_first_run: 0}` — a wall-clock timestamp taken at the moment of the
call, i.e. after the traversal.  `getSyncState` (lines 91-109) swallows
every read failure and falls back to the epoch/first-run default.
-/

/-- The JSON blob stored in `config.value` under key `sync_state`
(interface `SyncState`, smartSync.ts lines 16-19).  `last_sync` is an
ISO-8601 timestamp, modelled as a natural clock value; `is_first_run`
is `0` or `1`. -/
structure SyncState where
  last_sync : Nat
  is_first_run : Nat
deriving DecidableEq, Repr

/-- The default state `{last_sync: '1970-01-01T00:00:00.000Z',
is_first_run: 1}` that `getSyncState` falls back to (lines 104-107),
which is also the row installed by the migration script. -/
def epochState : SyncState := { last_sync := 0, is_first_run := 1 }

/-- Outcome of the `SELECT value FROM config WHERE key_name =
'sync_state'` read: a parsed row, an empty result set, or a thrown
query/parse error. -/
inductive ConfigRead where
  | ok (s : SyncState)
  | missing
  | dbError
deriving DecidableEq

/-- `getSyncState` (smartSync.ts lines 91-109): an empty result set
raises, and the surrounding catch turns every failure into the
epoch/first-run default instead of propagating it. -/
def getSyncState : ConfigRead → SyncState
  | .ok s => s
  | .missing => epochState
  | .dbError => epochState

/-- The two traversal modes of `smartSync`. -/
inductive SyncMode where
  | full
  | delta
deriving DecidableEq, Repr

/-- Mode selection (smartSync.ts lines 54-63): full when `forceFull`
is set or the state says first run, delta otherwise. -/
def selectMode (forceFull : Bool) (s : SyncState) : SyncMode :=
  if forceFull || s.is_first_run == 1 then .full else .delta

/-- `updateSyncState` (smartSync.ts lines 111-124): the row written is
`{last_sync: new Date().toISOString(), is_first_run: 0}` where the
timestamp is sampled inside the call — `now` is the wall clock at the
moment `updateSyncState` runs. -/
def updateSyncState (now : Nat) : SyncState :=
  { last_sync := now, is_first_run := 0 }

/-- One invocation of `smartSync`, with the external world made
explicit: the persisted config row, whether the state read succeeded,
whether the traversal returned without throwing, whether the cursor
`UPDATE` committed, and the wall-clock samples taken at entry
(`stats.startTime`, line 44) and inside `updateSyncState` (line 113). -/
structure SmartSyncRun where
  row : SyncState
  readOk : Bool
  travOk : Bool
  writeOk : Bool
  startTs : Nat
  endTs : Nat

/-- Errors that `smartSync` can propagate to its caller. -/
inductive SyncError where
  | traversal
  | cursorWrite
deriving DecidableEq

/-- The `smartSync` orchestrator (lines 33-89) as a state transformer
on the persisted cursor row.  The try block wraps the state read, the
traversal and `updateSyncState`; any throw is re-raised by the catch
(line 87) without touching the row, and a clean return means the
cursor row was rewritten by `updateSyncState` with the end-of-run
clock.  Returns the config row after the run together with the
outcome. -/
def smartSync (forceFull : Bool) (r : SmartSyncRun) :
    SyncState × Except SyncError SyncMode :=
  let st := getSyncState (if r.readOk then .ok r.row else .dbError)
  let mode := selectMode forceFull st
  if r.travOk then
    if r.writeOk then (updateSyncState r.endTs, .ok mode)
    else (r.row, .error .cursorWrite)
  else (r.row, .error .traversal)

/-- C1: on every successful run the cursor row written by
`updateSyncState` carries the wall clock sampled inside that call —
the end of the run — and for a run whose traversal takes time
(start 100, end 250) the persisted value differs from the start
timestamp that the claim and the spec require.  The run captures
`stats.startTime` at entry but never passes it to `updateSyncState`;
the sibling delta sync (`part_005`, line 79) does persist
`stats.startTime`, which marks the smart-sync behaviour as the slip. -/
theorem smartSync_cursor_written_at_end :
    (∀ ff row ro (startTs endTs : Nat),
        (smartSync ff
          { row := row, readOk := ro, travOk := true, writeOk := true,
            startTs := startTs, endTs := endTs }).1.last_sync = endTs)
    ∧ (smartSync false
        { row := epochState, readOk := true, travOk := true, writeOk := true,
          startTs := 100, endTs := 250 }).1.last_sync ≠ 100 := by
  constructor
  · intro ff row ro startTs endTs
    rfl
  · decide

/-- C2: if `smartSync` propagates an error, the persisted cursor row is
exactly what it was before the invocation; on a clean return the row
is the one written by `updateSyncState`, whose `is_first_run` is 0. -/
theorem smartSync_cursor_safety :
    ∀ ff r, (∀ e, (smartSync ff r).2 = .error e → (smartSync ff r).1 = r.row)
      ∧ (∀ m, (smartSync ff r).2 = .ok m →
          (smartSync ff r).1 = updateSyncState r.endTs ∧
          (smartSync ff r).1.is_first_run = 0) := by
  intro ff r
  constructor
  · intro e h
    unfold smartSync at h ⊢
    by_cases ht : r.travOk
    · by_cases hw : r.writeOk
      · simp [ht, hw] at h
      · simp [ht, hw]
    · simp [ht]
  · intro m h
    unfold smartSync at h ⊢
    by_cases ht : r.travOk
    · by_cases hw : r.writeOk
      · simp [ht, hw, updateSyncState]
      · simp [ht, hw] at h
    · simp [ht] at h

/-- Witness for C2 at concrete runs: a failing traversal leaves the
epoch row untouched, and a clean run clears the first-run flag. -/
theorem smartSync_cursor_safety_witness :
    (smartSync false
      { row := epochState, readOk := true, travOk := false, writeOk := true,
        startTs := 1, endTs := 2 }).1 = epochState
    ∧ (smartSync false
        { row := epochState, readOk := true, travOk := true, writeOk := true,
          startTs := 1, endTs := 2 }).1.is_first_run = 0 := by
  refine ⟨?_, ?_⟩
  · exact (smartSync_cursor_safety false
      { row := epochState, readOk := true, travOk := false, writeOk := true,
        startTs := 1, endTs := 2 }).1 .traversal rfl
  · exact ((smartSync_cursor_safety false
      { row := epochState, readOk := true, travOk := true, writeOk := true,
        startTs := 1, endTs := 2 }).2 .full rfl).2

/-- C10: a missing row or a thrown read both yield the epoch default
with the first-run flag set, so the invocation selects full mode (for
either value of `forceFull`) instead of aborting. -/
theorem getSyncState_failure_selects_full :
    ∀ ff, getSyncState .missing = epochState
      ∧ getSyncState .dbError = epochState
      ∧ selectMode ff (getSyncState .missing) = .full
      ∧ selectMode ff (getSyncState .dbError) = .full := by
  intro ff
  refine ⟨rfl, rfl, ?_, ?_⟩ <;> cases ff <;> rfl

/-! ## Thread slugs

Two thread-upsert paths compute a slug from the thread title:

* `syncSpecificThread` (part_007 lines 242-247) and `syncNewThread`
  (part_005 lines 286-291):
  `toLowerCase → strip non-[a-z0-9\s-] → \s+ to '-' → collapse '-'
  runs → drop one leading and one trailing '-' → substring(0,255)`;
* `upsertThread` in smartSync.ts (lines 406-413, and `upsertChannel`
  lines 381-386): `toLowerCase → strip → trim (whitespace) → \s+ to
  '-' → collapse '-' runs`, with no dash trimming and no truncation.

Characters are modelled as in the source; `\s` is the ASCII whitespace
class. -/

/-- JavaScript `\s` on the ASCII range. -/
def isWs (c : Char) : Bool :=
  c = ' ' || c = '\t' || c = '\n' || c = '\r' || c = '\x0b' || c = '\x0c'

/-- Lower-case letter or digit, the `[a-z0-9]` class. -/
def isLowerAlnum (c : Char) : Bool :=
  ('a' ≤ c && c ≤ 'z') || ('0' ≤ c && c ≤ '9')

/-- The class kept by `.replace(/[^a-z0-9\s-]/g, '')`. -/
def slugKeep (c : Char) : Bool :=
  isLowerAlnum c || isWs c || c = '-'

/-- `.replace(/\s+/g, '-')`: each maximal whitespace run becomes one
dash. -/
def wsToDash : List Char → List Char
  | [] => []
  | c :: cs =>
    if isWs c then
      match cs with
      | [] => ['-']
      | d :: _ => if isWs d then wsToDash cs else '-' :: wsToDash cs
    else c :: wsToDash cs

/-- `.replace(x, '-')` for the regex `x = -+` (global): each maximal
dash run becomes one dash. -/
def dashCollapse : List Char → List Char
  | [] => []
  | c :: cs =>
    if c = '-' then
      match cs with
      | [] => ['-']
      | d :: _ => if d = '-' then dashCollapse cs else '-' :: dashCollapse cs
    else c :: dashCollapse cs

/-- One application of `^-` removal: drop a single leading dash. -/
def dropLeadDash : List Char → List Char
  | [] => []
  | c :: t => if c = '-' then t else c :: t

/-- `.replace(/^-|-$/g, '')`: one leading and one trailing dash are
removed (the global regex finds at most one match at each end). -/
def trimDashEnds (l : List Char) : List Char :=
  (dropLeadDash ((dropLeadDash l).reverse)).reverse

/-- `String.prototype.trim()` on the ASCII range, used by the
smartSync slug between the strip and the whitespace collapse. -/
def trimWs (l : List Char) : List Char :=
  ((l.dropWhile isWs).reverse.dropWhile isWs).reverse

/-- The slug computed by `syncSpecificThread` (part_007 lines 242-247):
lowercase, strip, whitespace runs to dashes, collapse dash runs, trim
dashes, truncate to 255. -/
def historicalThreadSlug (title : List Char) : List Char :=
  (trimDashEnds (dashCollapse (wsToDash ((title.map Char.toLower).filter slugKeep)))).take 255

/-- The slug computed by `upsertThread` in smartSync.ts (lines
406-413): lowercase, strip, whitespace trim, whitespace runs to
dashes, collapse dash runs — no dash trimming, no truncation. -/
def smartSyncThreadSlug (title : List Char) : List Char :=
  dashCollapse (wsToDash (trimWs ((title.map Char.toLower).filter slugKeep)))

/-- Continuation of the slug regex after the leading `[a-z0-9]` of a
group: accepts `[a-z0-9]*(-[a-z0-9]+)*`. -/
def slugAfter : List Char → Bool
  | [] => true
  | c :: cs =>
    if c = '-' then
      match cs with
      | [] => false
      | d :: ds => isLowerAlnum d && slugAfter ds
    else isLowerAlnum c && slugAfter cs

/-- The claim's slug shape `^[a-z0-9]+(-[a-z0-9]+)*$`. -/
def matchesSlugRe : List Char → Bool
  | [] => false
  | c :: cs => isLowerAlnum c && slugAfter cs


/-- Adjacent characters are never both dashes. -/
def NotDD (a b : Char) : Prop := ¬(a = '-' ∧ b = '-')

theorem wsToDash_ws_single (a : Char) (ha : isWs a = true) :
    wsToDash [a] = ['-'] := by
  simp [wsToDash, ha]

theorem wsToDash_ws_ws (a d : Char) (ds : List Char) (ha : isWs a = true)
    (hd : isWs d = true) : wsToDash (a :: d :: ds) = wsToDash (d :: ds) := by
  conv => lhs; rw [wsToDash]
  simp [ha, hd]

theorem wsToDash_ws_nws (a d : Char) (ds : List Char) (ha : isWs a = true)
    (hd : ¬isWs d = true) :
    wsToDash (a :: d :: ds) = '-' :: wsToDash (d :: ds) := by
  conv => lhs; rw [wsToDash]
  simp [ha, hd]

theorem wsToDash_nws (a : Char) (cs : List Char) (ha : ¬isWs a = true) :
    wsToDash (a :: cs) = a :: wsToDash cs := by
  rw [wsToDash.eq_def]
  simp [ha]

theorem dashCollapse_dash_single : dashCollapse ['-'] = ['-'] := by
  simp [dashCollapse]

theorem dashCollapse_dash_dash (ds : List Char) :
    dashCollapse ('-' :: '-' :: ds) = dashCollapse ('-' :: ds) := by
  conv => lhs; rw [dashCollapse]
  simp

theorem dashCollapse_dash_nd (d : Char) (ds : List Char) (hd : d ≠ '-') :
    dashCollapse ('-' :: d :: ds) = '-' :: dashCollapse (d :: ds) := by
  conv => lhs; rw [dashCollapse]
  simp [hd]

theorem dashCollapse_cons_of_ne (a : Char) (cs : List Char) (h : a ≠ '-') :
    dashCollapse (a :: cs) = a :: dashCollapse cs := by
  rw [dashCollapse.eq_def]
  simp [h]

theorem wsToDash_subset : ∀ l : List Char, (∀ c ∈ l, slugKeep c = true) →
    ∀ c ∈ wsToDash l, isLowerAlnum c = true ∨ c = '-' := by
  intro l
  induction l with
  | nil => intro _ c hc; simp [wsToDash] at hc
  | cons a cs ih =>
    intro hk c hc
    have ha := hk a (by simp)
    have htl : ∀ x ∈ cs, slugKeep x = true := fun x hx => hk x (by simp [hx])
    by_cases hws : isWs a
    · cases cs with
      | nil =>
        rw [wsToDash_ws_single a hws] at hc
        simp at hc
        exact Or.inr hc
      | cons d ds =>
        by_cases hwd : isWs d
        · rw [wsToDash_ws_ws a d ds hws hwd] at hc
          exact ih htl c hc
        · rw [wsToDash_ws_nws a d ds hws hwd] at hc
          rcases List.mem_cons.mp hc with rfl | hc
          · exact Or.inr rfl
          · exact ih htl c hc
    · rw [wsToDash_nws a cs hws] at hc
      rcases List.mem_cons.mp hc with rfl | hc
      · have : (isLowerAlnum c = true ∨ isWs c = true) ∨ c = '-' := by
          simpa [slugKeep, Bool.or_eq_true] using ha
        rcases this with (h | h) | h
        · exact Or.inl h
        · exact absurd h (by simpa using hws)
        · exact Or.inr h
      · exact ih htl c hc

theorem dashCollapse_subset : ∀ l : List Char,
    (∀ c ∈ l, isLowerAlnum c = true ∨ c = '-') →
    ∀ c ∈ dashCollapse l, isLowerAlnum c = true ∨ c = '-' := by
  intro l
  induction l with
  | nil => intro _ c hc; simp [dashCollapse] at hc
  | cons a cs ih =>
    intro hk c hc
    have htl : ∀ x ∈ cs, isLowerAlnum x = true ∨ x = '-' :=
      fun x hx => hk x (by simp [hx])
    by_cases hd : a = '-'
    · subst hd
      cases cs with
      | nil =>
        rw [dashCollapse_dash_single] at hc
        simp at hc
        exact Or.inr hc
      | cons d ds =>
        by_cases hdd : d = '-'
        · subst hdd
          rw [dashCollapse_dash_dash ds] at hc
          exact ih htl c hc
        · rw [dashCollapse_dash_nd d ds hdd] at hc
          rcases List.mem_cons.mp hc with rfl | hc
          · exact Or.inr rfl
          · exact ih htl c hc
    · rw [dashCollapse_cons_of_ne a cs hd] at hc
      rcases List.mem_cons.mp hc with rfl | hc
      · exact hk c (by simp)
      · exact ih htl c hc

theorem dashCollapse_chain : ∀ l : List Char, (dashCollapse l).Chain' NotDD := by
  intro l
  induction l with
  | nil => simp [dashCollapse]
  | cons a cs ih =>
    by_cases hd : a = '-'
    · subst hd
      cases cs with
      | nil => rw [dashCollapse_dash_single]; simp
      | cons d ds =>
        by_cases hdd : d = '-'
        · subst hdd; rw [dashCollapse_dash_dash ds]; exact ih
        · rw [dashCollapse_dash_nd d ds hdd]
          rw [dashCollapse_cons_of_ne d ds hdd]
          rw [dashCollapse_cons_of_ne d ds hdd] at ih
          exact List.chain'_cons.mpr ⟨fun h => hdd h.2, ih⟩
    · rw [dashCollapse_cons_of_ne a cs hd]
      exact List.chain'_cons'.mpr ⟨fun y _ h => hd h.1, ih⟩

theorem dropLeadDash_subset (l : List Char) (P : Char → Prop)
    (h : ∀ c ∈ l, P c) : ∀ c ∈ dropLeadDash l, P c := by
  cases l with
  | nil => intro c hc; simp [dropLeadDash] at hc
  | cons a t =>
    intro c hc
    by_cases ha : a = '-'
    · simp only [dropLeadDash, ha, if_pos] at hc
      exact h c (by simp [hc])
    · simp only [dropLeadDash, ha, if_neg, not_false_iff] at hc
      exact h c hc

theorem dropLeadDash_chain (l : List Char) (h : l.Chain' NotDD) :
    (dropLeadDash l).Chain' NotDD := by
  cases l with
  | nil => simp [dropLeadDash]
  | cons a t =>
    by_cases ha : a = '-'
    · simpa only [dropLeadDash, ha, if_pos] using h.tail
    · simpa only [dropLeadDash, ha, if_neg, not_false_iff] using h

theorem dropLeadDash_head (l : List Char) (h : l.Chain' NotDD) :
    (dropLeadDash l).head? ≠ some '-' := by
  cases l with
  | nil => simp [dropLeadDash]
  | cons a t =>
    by_cases ha : a = '-'
    · subst ha
      simp only [dropLeadDash, if_pos]
      cases t with
      | nil => simp
      | cons x t2 =>
        have := (List.chain'_cons.mp h).1
        intro hx
        exact this ⟨rfl, by simpa using hx⟩
    · simp only [dropLeadDash, ha, if_neg, not_false_iff]
      intro hx
      exact ha (by simpa using hx)

theorem dropLeadDash_getLast (l : List Char) :
    dropLeadDash l = [] ∨ (dropLeadDash l).getLast? = l.getLast? := by
  cases l with
  | nil => exact Or.inl rfl
  | cons a t =>
    by_cases ha : a = '-'
    · subst ha
      simp only [dropLeadDash, if_pos]
      cases t with
      | nil => exact Or.inl rfl
      | cons x t2 => exact Or.inr List.getLast?_cons_cons.symm
    · right
      simp [dropLeadDash, ha]

theorem chain_notdd_reverse (l : List Char) (h : l.Chain' NotDD) :
    l.reverse.Chain' NotDD := by
  rw [List.chain'_reverse]
  exact h.imp fun a b hab hc => hab ⟨hc.2, hc.1⟩

theorem trimDashEnds_spec (l : List Char) (hch : l.Chain' NotDD)
    (hcl : ∀ c ∈ l, isLowerAlnum c = true ∨ c = '-') :
    (∀ c ∈ trimDashEnds l, isLowerAlnum c = true ∨ c = '-')
    ∧ (trimDashEnds l).Chain' NotDD
    ∧ (trimDashEnds l).head? ≠ some '-'
    ∧ (trimDashEnds l).getLast? ≠ some '-' := by
  have h1cl : ∀ c ∈ dropLeadDash l, isLowerAlnum c = true ∨ c = '-' :=
    dropLeadDash_subset l _ hcl
  have h1ch : (dropLeadDash l).Chain' NotDD := dropLeadDash_chain l hch
  have h1h : (dropLeadDash l).head? ≠ some '-' := dropLeadDash_head l hch
  have h2ch : (dropLeadDash l).reverse.Chain' NotDD := chain_notdd_reverse _ h1ch
  have h3ch : (dropLeadDash ((dropLeadDash l).reverse)).Chain' NotDD :=
    dropLeadDash_chain _ h2ch
  have h3h : (dropLeadDash ((dropLeadDash l).reverse)).head? ≠ some '-' :=
    dropLeadDash_head _ h2ch
  refine ⟨?_, ?_, ?_, ?_⟩
  · intro c hc
    unfold trimDashEnds at hc
    rw [List.mem_reverse] at hc
    exact dropLeadDash_subset _ _ (fun x hx => h1cl x (List.mem_reverse.mp hx)) c hc
  · exact chain_notdd_reverse _ h3ch
  · unfold trimDashEnds
    rw [List.head?_reverse]
    rcases dropLeadDash_getLast ((dropLeadDash l).reverse) with he | heq
    · rw [he]; simp
    · rw [heq, List.getLast?_reverse]
      exact h1h
  · unfold trimDashEnds
    rw [List.getLast?_reverse]
    exact h3h

theorem slugAfter_dash_cons (d : Char) (ds : List Char) :
    slugAfter ('-' :: d :: ds) = (isLowerAlnum d && slugAfter ds) := by
  rw [slugAfter.eq_def]
  simp

theorem slugAfter_cons_of_ne (c : Char) (cs : List Char) (h : ¬c = '-') :
    slugAfter (c :: cs) = (isLowerAlnum c && slugAfter cs) := by
  rw [slugAfter.eq_def]
  simp [h]

theorem slugAfter_of_inv : ∀ n (l : List Char), l.length ≤ n →
    (∀ c ∈ l, isLowerAlnum c = true ∨ c = '-') →
    l.Chain' NotDD → l.getLast? ≠ some '-' → slugAfter l = true := by
  intro n
  induction n with
  | zero =>
    intro l hl _ _ _
    have : l = [] := List.length_eq_zero.mp (Nat.le_zero.mp hl)
    subst this; rfl
  | succ n ih =>
    intro l hl hcl hch hlast
    rcases l with _ | ⟨c, _ | ⟨d, cs⟩⟩
    · rfl
    · have hc : c ≠ '-' := by
        intro h; exact hlast (by simp [h])
      have ha : isLowerAlnum c = true := (hcl c (by simp)).resolve_right hc
      rw [slugAfter_cons_of_ne c [] hc, ha]
      rfl
    · by_cases hc : c = '-'
      · subst hc
        have hd : d ≠ '-' := by
          intro h
          exact (List.chain'_cons.mp hch).1 ⟨rfl, h⟩
        have ha : isLowerAlnum d = true := (hcl d (by simp)).resolve_right hd
        rw [slugAfter_dash_cons, ha]
        simp only [Bool.true_and]
        apply ih cs (by simp only [List.length_cons] at hl ⊢; omega)
        · exact fun x hx => hcl x (by simp [hx])
        · exact hch.tail.tail
        · cases cs with
          | nil => simp
          | cons x xs =>
            rw [List.getLast?_cons_cons, List.getLast?_cons_cons] at hlast
            exact hlast
      · have ha : isLowerAlnum c = true := (hcl c (by simp)).resolve_right hc
        rw [slugAfter_cons_of_ne c (d :: cs) hc, ha]
        simp only [Bool.true_and]
        apply ih (d :: cs) (by simp only [List.length_cons] at hl ⊢; omega)
        · exact fun x hx => hcl x (by simp [hx])
        · exact hch.tail
        · rw [List.getLast?_cons_cons] at hlast
          exact hlast

theorem matchesSlugRe_of_inv (l : List Char)
    (hcl : ∀ c ∈ l, isLowerAlnum c = true ∨ c = '-')
    (hch : l.Chain' NotDD) (hh : l.head? ≠ some '-')
    (hlast : l.getLast? ≠ some '-') :
    l = [] ∨ matchesSlugRe l = true := by
  cases l with
  | nil => exact Or.inl rfl
  | cons c cs =>
    right
    have hc : c ≠ '-' := fun h => hh (by simp [h])
    have ha : isLowerAlnum c = true := (hcl c (by simp)).resolve_right hc
    have hafter : slugAfter cs = true := by
      apply slugAfter_of_inv cs.length cs le_rfl
      · exact fun x hx => hcl x (by simp [hx])
      · exact hch.tail
      · cases cs with
        | nil => simp
        | cons x xs =>
          rw [List.getLast?_cons_cons] at hlast
          exact hlast
    simp [matchesSlugRe, ha, hafter]

theorem wsToDash_length : ∀ l : List Char, (wsToDash l).length ≤ l.length := by
  intro l
  induction l with
  | nil => simp [wsToDash]
  | cons a cs ih =>
    by_cases hws : isWs a
    · cases cs with
      | nil => rw [wsToDash_ws_single a hws]; simp
      | cons d ds =>
        by_cases hwd : isWs d
        · rw [wsToDash_ws_ws a d ds hws hwd]
          exact le_trans ih (by simp)
        · rw [wsToDash_ws_nws a d ds hws hwd]
          simpa using ih
    · rw [wsToDash_nws a cs hws]
      simpa using ih

theorem dashCollapse_length : ∀ l : List Char,
    (dashCollapse l).length ≤ l.length := by
  intro l
  induction l with
  | nil => simp [dashCollapse]
  | cons a cs ih =>
    by_cases hd : a = '-'
    · subst hd
      cases cs with
      | nil => rw [dashCollapse_dash_single]
      | cons d ds =>
        by_cases hdd : d = '-'
        · subst hdd
          rw [dashCollapse_dash_dash ds]
          exact le_trans ih (by simp)
        · rw [dashCollapse_dash_nd d ds hdd]
          simpa using ih
    · rw [dashCollapse_cons_of_ne a cs hd]
      simpa using ih

theorem dropLeadDash_length (l : List Char) :
    (dropLeadDash l).length ≤ l.length := by
  cases l with
  | nil => simp [dropLeadDash]
  | cons a t =>
    by_cases ha : a = '-'
    · simp [dropLeadDash, ha]
    · simp [dropLeadDash, ha]

theorem trimDashEnds_length (l : List Char) :
    (trimDashEnds l).length ≤ l.length := by
  unfold trimDashEnds
  calc (dropLeadDash ((dropLeadDash l).reverse)).reverse.length
      = (dropLeadDash ((dropLeadDash l).reverse)).length := by simp
    _ ≤ (dropLeadDash l).reverse.length := dropLeadDash_length _
    _ = (dropLeadDash l).length := by simp
    _ ≤ l.length := dropLeadDash_length l

/-- C9 (amended): the historical-sync slug (part_007 lines 242-247,
also part_005 lines 286-291), which trims dashes and truncates, is
empty or matches the shape `[a-z0-9]+(-[a-z0-9]+)*` for every title of
length at most 255 (longer titles can be cut inside a group by the
final `substring(0,255)`), and its length never exceeds 255.  The
smartSync upsert path computes its slug without the dash trim and the
truncation, so the shape fails there — see the counterexample. -/
theorem historicalThreadSlug_shape :
    ∀ title : List Char, title.length ≤ 255 →
      (historicalThreadSlug title = [] ∨
        matchesSlugRe (historicalThreadSlug title) = true)
      ∧ (historicalThreadSlug title).length ≤ 255 := by
  intro title hlen
  have hkeep : ∀ c ∈ (title.map Char.toLower).filter slugKeep,
      slugKeep c = true := fun c hc => (List.mem_filter.mp hc).2
  have h1 := wsToDash_subset _ hkeep
  have h2cl := dashCollapse_subset _ h1
  have h2ch := dashCollapse_chain (wsToDash ((title.map Char.toLower).filter slugKeep))
  obtain ⟨tcl, tch, thead, tlast⟩ := trimDashEnds_spec _ h2ch h2cl
  have hfl : ((title.map Char.toLower).filter slugKeep).length ≤ title.length := by
    refine le_trans (List.length_filter_le _ _) (by simp)
  have hwl := wsToDash_length ((title.map Char.toLower).filter slugKeep)
  have hdl := dashCollapse_length (wsToDash ((title.map Char.toLower).filter slugKeep))
  have htl := trimDashEnds_length
    (dashCollapse (wsToDash ((title.map Char.toLower).filter slugKeep)))
  have hinner :
      (trimDashEnds (dashCollapse (wsToDash
        ((title.map Char.toLower).filter slugKeep)))).length ≤ 255 := by omega
  have htake : historicalThreadSlug title =
      trimDashEnds (dashCollapse (wsToDash
        ((title.map Char.toLower).filter slugKeep))) := by
    unfold historicalThreadSlug
    exact List.take_of_length_le hinner
  refine ⟨?_, ?_⟩
  · rw [htake]
    exact matchesSlugRe_of_inv _ tcl tch thead tlast
  · rw [htake]
    exact hinner

/-- Witness for C9 at the spec's own example title: the slug of
"How do I X?" is well-formed and short. -/
theorem historicalThreadSlug_shape_witness :
    (historicalThreadSlug (String.toList "How do I X?") = [] ∨
      matchesSlugRe (historicalThreadSlug (String.toList "How do I X?")) = true)
    ∧ (historicalThreadSlug (String.toList "How do I X?")).length ≤ 255 :=
  historicalThreadSlug_shape (String.toList "How do I X?") (by decide)

/-- C9 counterexample: on the smartSync thread-upsert path the slug of
the title "-a-" keeps its leading and trailing dash, is nonempty, and
does not match `[a-z0-9]+(-[a-z0-9]+)*` — the claim fails on this
thread-upsert path because that path never trims dashes. -/
theorem smartSyncThreadSlug_counterexample :
    smartSyncThreadSlug (String.toList "-a-") = String.toList "-a-"
    ∧ matchesSlugRe (smartSyncThreadSlug (String.toList "-a-")) = false
    ∧ smartSyncThreadSlug (String.toList "-a-") ≠ [] := by decide

/-! ## Post reconciliation (`lib/sync.ts`, part_007, and smartSync.ts)

The store is the `posts` table, modelled as a list of rows in insertion
order.  Author aliases are values produced by `hashUserId`; the hash is
passed in as a function `hash : Nat → Nat` standing for `hashUserId`
under the fixed process pepper (its concrete definition is studied
separately with the identity hasher).  Columns that play no role in
reply references or reply counting (`body_html`, timestamps) are
projected away; the reply fields, ids and `thread_id` follow the SQL of
the source statements exactly.  In `upsertPost`/`syncMessage`, `ON
DUPLICATE KEY UPDATE` rewrites only the reply fields (and body), never
`thread_id`, `author_alias` or `created_at`. -/

/-- A Discord message as the reconciler sees it: id, author id, bot
flag, `reference?.messageId`, creation timestamp. -/
structure Msg where
  id : Nat
  author : Nat
  bot : Bool
  ref : Option Nat
  createdAt : Nat
deriving DecidableEq, Repr

/-- A row of the `posts` table (projected to the columns the claims
are about). -/
structure PostRow where
  id : Nat
  thread_id : Nat
  author_alias : Nat
  reply_to_id : Option Nat
  reply_to_author_alias : Option Nat
deriving DecidableEq, Repr

/-- `SELECT ... FROM posts WHERE id = ?`. -/
def findPost (t : List PostRow) (i : Nat) : Option PostRow :=
  t.find? (fun q => q.id == i)

/-- `UPDATE posts SET ... WHERE id = ?`: rewrite the row with the
given id in place. -/
def setRowFields (t : List PostRow) (i : Nat) (f : PostRow → PostRow) :
    List PostRow :=
  t.map (fun q => if q.id == i then f q else q)

/-- `INSERT ... ON DUPLICATE KEY UPDATE body_html, reply_to_id,
reply_to_author_alias, updated_at` — on a duplicate key only the reply
fields of the projection change. -/
def upsertPostRow (t : List PostRow) (p : PostRow) : List PostRow :=
  if t.any (fun q => q.id == p.id) then
    setRowFields t p.id (fun q =>
      { q with reply_to_id := p.reply_to_id,
               reply_to_author_alias := p.reply_to_author_alias })
  else t ++ [p]

/-- `message.channel.messages.fetch(id)`: fetch a message by id from
the platform; `U` is the set of messages still fetchable upstream, and
a deleted referent makes the fetch throw (here: `none`). -/
def fetchMsg (U : List Msg) (i : Nat) : Option Msg :=
  U.find? (fun m => m.id == i)

/-- `SELECT COUNT(*) FROM posts WHERE thread_id = ?`. -/
def countPosts (t : List PostRow) (tid : Nat) : Nat :=
  (t.filter (fun q => q.thread_id == tid)).length

/-- `updateThreadReplyCount` (smartSync.ts lines 555-565): the value
written into `threads.reply_count` is `COUNT(*) - 1` over the thread's
post rows (SQL integer arithmetic, hence `Int`). -/
def updateThreadReplyCount (t : List PostRow) (tid : Nat) : Int :=
  (countPosts t tid : Int) - 1

/-- `syncMessage` (part_007 lines 324-407): resolve the reply
reference — alias from the upstream fetch of the referent, id kept
only when the referent exists in the store, both cleared otherwise —
then upsert the post.  The author alias is the plain `hashUserId` of
the author (line 325). -/
def syncReplyPair (hash : Nat → Nat) (U : List Msg) (t : List PostRow)
    (m : Msg) : Option Nat × Option Nat :=
  match m.ref with
  | none => (none, none)
  | some r =>
    if (findPost t r).isSome then
      (some r,
        match fetchMsg U r with
        | some rm => some (hash rm.author)
        | none => none)
    else (none, none)

/-- The row upserted for a message by `syncMessage`. -/
def syncMessageRow (hash : Nat → Nat) (U : List Msg) (tid : Nat)
    (t : List PostRow) (m : Msg) : PostRow :=
  { id := m.id, thread_id := tid, author_alias := hash m.author,
    reply_to_id := (syncReplyPair hash U t m).1,
    reply_to_author_alias := (syncReplyPair hash U t m).2 }

def syncMessage (hash : Nat → Nat) (U : List Msg) (tid : Nat)
    (t : List PostRow) (m : Msg) : List PostRow :=
  upsertPostRow t (syncMessageRow hash U tid t m)

/-- `updateReplyReferences` (part_007 lines 409-449): for a message
with a source reference whose stored post has a null `reply_to_id`,
re-check the store and, when the referent now exists, write its id and
its stored `author_alias` into the row. -/
def updateReplyReferences (t : List PostRow) (m : Msg) : List PostRow :=
  match m.ref with
  | none => t
  | some r =>
    match findPost t m.id with
    | none => t
    | some cur =>
      if cur.reply_to_id ≠ none then t
      else
        match findPost t r with
        | none => t
        | some refPost =>
          setRowFields t m.id (fun q =>
            { q with reply_to_id := some r,
                     reply_to_author_alias := some refPost.author_alias })

/-- The first pass of `syncSpecificThread` (lines 289-297): upsert the
thread's messages in order. -/
def runFirstPass (hash : Nat → Nat) (U : List Msg) (tid : Nat)
    (t : List PostRow) (ms : List Msg) : List PostRow :=
  ms.foldl (syncMessage hash U tid) t

/-- The second pass of `syncSpecificThread` (lines 299-308): repair
deferred references in the same order. -/
def runRepairPass (t : List PostRow) (ms : List Msg) : List PostRow :=
  ms.foldl updateReplyReferences t

/-- The reply messages of a thread as filtered by `syncSpecificThread`
(lines 284-286): drop the starter message and bot messages.  The input
list is taken in the chronological order produced by the sort on
`createdAt`. -/
def threadReplies (starterId : Nat) (msgs : List Msg) : List Msg :=
  msgs.filter (fun m => m.id != starterId && !m.bot)

/-- The post-processing tail of `syncSpecificThread` (part_007 lines
276-314): run both passes over the thread's reply messages, then write
`reply_count = postCount`, the number of posts processed in this run
(line 310-314) — not a recount of the table. -/
def syncSpecificThreadPosts (hash : Nat → Nat) (U : List Msg)
    (tid starterId : Nat) (t : List PostRow) (msgs : List Msg) :
    List PostRow × Int :=
  let rs := threadReplies starterId msgs
  let afterFirst := runFirstPass hash U tid t rs
  (runRepairPass afterFirst rs, (rs.length : Int))

/-- `upsertPost` (smartSync.ts lines 475-553): the reply alias is read
from the stored referent row (not from an upstream fetch), and both
reply fields are cleared when the referent is not in the store.  The
staff-tag decoration of the author alias (lines 477-479) does not
affect ids, references or counts and is projected away. -/
def upsertReplyPair (t : List PostRow) (m : Msg) : Option Nat × Option Nat :=
  match m.ref with
  | none => (none, none)
  | some r =>
    match findPost t r with
    | some rp => (some r, some rp.author_alias)
    | none => (none, none)

def upsertPost (hash : Nat → Nat) (tid : Nat) (t : List PostRow)
    (m : Msg) : List PostRow :=
  upsertPostRow t
    { id := m.id, thread_id := tid, author_alias := hash m.author,
      reply_to_id := (upsertReplyPair t m).1,
      reply_to_author_alias := (upsertReplyPair t m).2 }

/-- `syncThreadFull` (smartSync.ts lines 265-292): upsert every
non-bot message of the thread — the starter included — then call
`updateThreadReplyCount`.  Returns the posts table and the
`reply_count` value written for the thread. -/
def syncThreadFull (hash : Nat → Nat) (tid : Nat) (t : List PostRow)
    (msgs : List Msg) : List PostRow × Int :=
  let ms := msgs.filter (fun m => !m.bot)
  let posts := ms.foldl (upsertPost hash tid) t
  (posts, updateThreadReplyCount posts tid)

theorem setRowFields_cons (q : PostRow) (qs : List PostRow) (i : Nat)
    (f : PostRow → PostRow) :
    setRowFields (q :: qs) i f =
      (if q.id == i then f q else q) :: setRowFields qs i f := rfl

theorem setRowFields_map_id (t : List PostRow) (i : Nat)
    (f : PostRow → PostRow) (hf : ∀ q, (f q).id = q.id) :
    (setRowFields t i f).map PostRow.id = t.map PostRow.id := by
  induction t with
  | nil => rfl
  | cons q qs ih =>
    rw [setRowFields_cons]
    by_cases hq : q.id = i
    · simp only [List.map_cons, ih, hq, beq_self_eq_true, if_true, hf]
    · simp only [List.map_cons, ih, beq_iff_eq, hq, if_false]

theorem findPost_cons (q : PostRow) (qs : List PostRow) (j : Nat) :
    findPost (q :: qs) j = if q.id == j then some q else findPost qs j := by
  by_cases h : (q.id == j) = true
  · rw [if_pos h]
    exact List.find?_cons_of_pos _ h
  · rw [if_neg h]
    exact List.find?_cons_of_neg _ (by simpa using h)

theorem findPost_setRowFields_ne (t : List PostRow) (i j : Nat)
    (f : PostRow → PostRow) (hf : ∀ q, (f q).id = q.id) (hij : j ≠ i) :
    findPost (setRowFields t i f) j = findPost t j := by
  induction t with
  | nil => rfl
  | cons q qs ih =>
    rw [setRowFields_cons]
    by_cases hq : q.id = i
    · have h1 : ((if q.id == i then f q else q) : PostRow) = f q := by simp [hq]
      rw [h1, findPost_cons, findPost_cons]
      have h2 : ¬((f q).id == j) = true := by simp [hf, hq]; exact fun h => hij h.symm
      have h3 : ¬(q.id == j) = true := by simp [hq]; exact fun h => hij h.symm
      rw [if_neg h2, if_neg h3]
      exact ih
    · have h1 : ((if q.id == i then f q else q) : PostRow) = q := by simp [hq]
      rw [h1, findPost_cons, findPost_cons]
      by_cases hqj : (q.id == j) = true
      · rw [if_pos hqj, if_pos hqj]
      · rw [if_neg hqj, if_neg hqj]
        exact ih

theorem findPost_setRowFields_self (t : List PostRow) (i : Nat)
    (f : PostRow → PostRow) (hf : ∀ q, (f q).id = q.id) :
    findPost (setRowFields t i f) i = (findPost t i).map f := by
  induction t with
  | nil => rfl
  | cons q qs ih =>
    rw [setRowFields_cons]
    by_cases hq : q.id = i
    · have h1 : ((if q.id == i then f q else q) : PostRow) = f q := by simp [hq]
      rw [h1, findPost_cons, findPost_cons]
      have h2 : ((f q).id == i) = true := by simp [hf, hq]
      have h3 : (q.id == i) = true := by simp [hq]
      rw [if_pos h2, if_pos h3]
      rfl
    · have h1 : ((if q.id == i then f q else q) : PostRow) = q := by simp [hq]
      have h3 : ¬(q.id == i) = true := by simp [hq]
      rw [h1, findPost_cons, findPost_cons, if_neg h3, if_neg h3]
      exact ih

theorem findPost_append_single (t : List PostRow) (p : PostRow) (j : Nat) :
    findPost (t ++ [p]) j =
      match findPost t j with
      | some q => some q
      | none => if p.id == j then some p else none := by
  induction t with
  | nil =>
    show findPost [p] j = _
    rw [findPost_cons]
    rfl
  | cons q qs ih =>
    have hcons : (q :: qs) ++ [p] = q :: (qs ++ [p]) := rfl
    rw [hcons, findPost_cons, findPost_cons]
    by_cases hq : (q.id == j) = true
    · rw [if_pos hq, if_pos hq]
    · rw [if_neg hq, if_neg hq]
      exact ih

theorem any_id_eq_false (t : List PostRow) (i : Nat) :
    t.any (fun q => q.id == i) = false ↔ i ∉ t.map PostRow.id := by
  constructor
  · intro h hm
    rw [List.mem_map] at hm
    obtain ⟨q, hq, hid⟩ := hm
    have ht : t.any (fun q => q.id == i) = true :=
      List.any_eq_true.mpr ⟨q, hq, by simp [hid]⟩
    rw [h] at ht
    exact Bool.noConfusion ht
  · intro h
    cases hh : t.any (fun q => q.id == i)
    · rfl
    · obtain ⟨q, hq, hid⟩ := List.any_eq_true.mp hh
      exact absurd (List.mem_map.mpr ⟨q, hq, by simpa using hid⟩) h

theorem findPost_eq_none (t : List PostRow) (j : Nat) :
    findPost t j = none ↔ j ∉ t.map PostRow.id := by
  induction t with
  | nil => simp [findPost]
  | cons q qs ih =>
    rw [findPost_cons]
    by_cases hq : q.id = j
    · have h3 : (q.id == j) = true := by simp [hq]
      rw [if_pos h3]
      simp [hq]
    · have h3 : ¬(q.id == j) = true := by simp [hq]
      rw [if_neg h3, ih]
      simp only [List.map_cons, List.mem_cons]
      constructor
      · intro hnot hor
        rcases hor with h | h
        · exact hq h.symm
        · exact hnot h
      · intro hnot hmem
        exact hnot (Or.inr hmem)

theorem findPost_isSome_iff (t : List PostRow) (j : Nat) :
    (findPost t j).isSome = true ↔ j ∈ t.map PostRow.id := by
  rcases h : findPost t j with _ | q
  · simp only [Option.isSome_none, Bool.false_eq_true, false_iff]
    exact (findPost_eq_none t j).mp h
  · simp only [Option.isSome_some, true_iff]
    by_contra hm
    rw [← findPost_eq_none t j] at hm
    rw [h] at hm
    exact Option.noConfusion hm

theorem upsertPostRow_of_not_mem (t : List PostRow) (p : PostRow)
    (h : p.id ∉ t.map PostRow.id) : upsertPostRow t p = t ++ [p] := by
  unfold upsertPostRow
  rw [if_neg]
  rw [(any_id_eq_false t p.id).mpr h]
  simp

theorem findPost_upsert_ne (t : List PostRow) (p : PostRow) (j : Nat)
    (hj : p.id ≠ j) : findPost (upsertPostRow t p) j = findPost t j := by
  unfold upsertPostRow
  by_cases hc : t.any (fun q => q.id == p.id) = true
  · rw [if_pos hc]
    exact findPost_setRowFields_ne t p.id j
      (fun q => { q with reply_to_id := p.reply_to_id,
                         reply_to_author_alias := p.reply_to_author_alias })
      (fun q => rfl) (fun h => hj h.symm)
  · rw [if_neg hc, findPost_append_single]
    rcases hfp : findPost t j with _ | q
    · have : (p.id == j) = false := by simp [hj]
      simp [this]
    · simp

theorem findPost_isSome_upsert (t : List PostRow) (p : PostRow) (j : Nat)
    (h : (findPost t j).isSome = true) :
    (findPost (upsertPostRow t p) j).isSome = true := by
  unfold upsertPostRow
  by_cases hc : t.any (fun q => q.id == p.id) = true
  · rw [if_pos hc]
    by_cases hj : j = p.id
    · subst hj
      rw [findPost_setRowFields_self t p.id
        (fun q => { q with reply_to_id := p.reply_to_id,
                           reply_to_author_alias := p.reply_to_author_alias })
        (fun q => rfl)]
      rcases hfp : findPost t p.id with _ | q
      · rw [hfp] at h; exact absurd h (by simp)
      · simp
    · rw [findPost_setRowFields_ne t p.id j
        (fun q => { q with reply_to_id := p.reply_to_id,
                           reply_to_author_alias := p.reply_to_author_alias })
        (fun q => rfl) hj]
      exact h
  · rw [if_neg hc, findPost_append_single]
    rcases hfp : findPost t j with _ | q
    · rw [hfp] at h; exact absurd h (by simp)
    · simp

theorem upsertPostRow_map_id_of_not_mem (t : List PostRow) (p : PostRow)
    (h : p.id ∉ t.map PostRow.id) :
    (upsertPostRow t p).map PostRow.id = t.map PostRow.id ++ [p.id] := by
  rw [upsertPostRow_of_not_mem t p h, List.map_append]
  rfl

theorem updateReplyReferences_shape (t : List PostRow) (m : Msg) :
    updateReplyReferences t m = t ∨
      ∃ f : PostRow → PostRow,
        (∀ q, (f q).id = q.id ∧ (f q).thread_id = q.thread_id) ∧
        updateReplyReferences t m = setRowFields t m.id f := by
  unfold updateReplyReferences
  rcases m.ref with _ | r
  · exact Or.inl rfl
  · dsimp only
    rcases findPost t m.id with _ | cur
    · exact Or.inl rfl
    · dsimp only
      by_cases hc : cur.reply_to_id ≠ none
      · rw [if_pos hc]
        exact Or.inl rfl
      · rw [if_neg hc]
        rcases findPost t r with _ | refPost
        · exact Or.inl rfl
        · dsimp only
          exact Or.inr ⟨(fun q =>
            { q with reply_to_id := some r,
                     reply_to_author_alias := some refPost.author_alias }),
            fun q => ⟨rfl, rfl⟩, rfl⟩

theorem updateReplyReferences_map_id (t : List PostRow) (m : Msg) :
    (updateReplyReferences t m).map PostRow.id = t.map PostRow.id := by
  rcases updateReplyReferences_shape t m with h | ⟨f, hf, h⟩
  · rw [h]
  · rw [h, setRowFields_map_id t m.id f (fun q => (hf q).1)]

theorem findPost_repairStep_ne (t : List PostRow) (m : Msg) (j : Nat)
    (hj : j ≠ m.id) :
    findPost (updateReplyReferences t m) j = findPost t j := by
  rcases updateReplyReferences_shape t m with h | ⟨f, hf, h⟩
  · rw [h]
  · rw [h, findPost_setRowFields_ne t m.id j f (fun q => (hf q).1) hj]

theorem findPost_isSome_repairStep (t : List PostRow) (m : Msg) (j : Nat)
    (h : (findPost t j).isSome = true) :
    (findPost (updateReplyReferences t m) j).isSome = true := by
  rcases updateReplyReferences_shape t m with hs | ⟨f, hf, hs⟩
  · rw [hs]; exact h
  · rw [hs]
    by_cases hj : j = m.id
    · subst hj
      rw [findPost_setRowFields_self t m.id f (fun q => (hf q).1)]
      rcases hfp : findPost t m.id with _ | q
      · rw [hfp] at h; exact absurd h (by simp)
      · simp
    · rw [findPost_setRowFields_ne t m.id j f (fun q => (hf q).1) hj]
      exact h

theorem runRepairPass_map_id (ms : List Msg) : ∀ t : List PostRow,
    (runRepairPass t ms).map PostRow.id = t.map PostRow.id := by
  induction ms with
  | nil => intro t; rfl
  | cons m rest ih =>
    intro t
    show (runRepairPass (updateReplyReferences t m) rest).map PostRow.id = _
    rw [ih (updateReplyReferences t m), updateReplyReferences_map_id]

theorem findPost_runRepairPass_not_mem (ms : List Msg) : ∀ t (j : Nat),
    j ∉ ms.map Msg.id →
    findPost (runRepairPass t ms) j = findPost t j := by
  induction ms with
  | nil => intro t j _; rfl
  | cons m rest ih =>
    intro t j hj
    have hm : j ≠ m.id := fun h => hj (by simp [h])
    have hr : j ∉ rest.map Msg.id := fun h => hj (by simp [h])
    show findPost (runRepairPass (updateReplyReferences t m) rest) j = _
    rw [ih _ j hr, findPost_repairStep_ne t m j hm]

theorem findPost_isSome_runRepairPass (ms : List Msg) : ∀ t (j : Nat),
    (findPost t j).isSome = true →
    (findPost (runRepairPass t ms) j).isSome = true := by
  induction ms with
  | nil => intro t j h; exact h
  | cons m rest ih =>
    intro t j h
    exact ih _ j (findPost_isSome_repairStep t m j h)

theorem findPost_runFirstPass_not_mem (hash : Nat → Nat) (U : List Msg)
    (tid : Nat) (ms : List Msg) : ∀ t (j : Nat),
    j ∉ ms.map Msg.id →
    findPost (runFirstPass hash U tid t ms) j = findPost t j := by
  induction ms with
  | nil => intro t j _; rfl
  | cons m rest ih =>
    intro t j hj
    have hm : j ≠ m.id := fun h => hj (by simp [h])
    have hr : j ∉ rest.map Msg.id := fun h => hj (by simp [h])
    show findPost (runFirstPass hash U tid (syncMessage hash U tid t m) rest) j = _
    rw [ih _ j hr]
    exact findPost_upsert_ne t _ j (fun h => hm h.symm)

theorem findPost_isSome_runFirstPass (hash : Nat → Nat) (U : List Msg)
    (tid : Nat) (ms : List Msg) : ∀ t (j : Nat),
    (findPost t j).isSome = true →
    (findPost (runFirstPass hash U tid t ms) j).isSome = true := by
  induction ms with
  | nil => intro t j h; exact h
  | cons m rest ih =>
    intro t j h
    exact ih _ j (findPost_isSome_upsert t _ j h)

theorem runFirstPass_map_id (hash : Nat → Nat) (U : List Msg) (tid : Nat)
    (ms : List Msg) : ∀ t : List PostRow,
    (t.map PostRow.id ++ ms.map Msg.id).Nodup →
    (runFirstPass hash U tid t ms).map PostRow.id =
      t.map PostRow.id ++ ms.map Msg.id := by
  induction ms with
  | nil => intro t _; simp [runFirstPass]
  | cons m rest ih =>
    intro t hnd
    have hmem : m.id ∉ t.map PostRow.id := by
      have := (List.nodup_append.mp hnd).2.2
      intro hm
      exact this hm (by simp)
    show (runFirstPass hash U tid (syncMessage hash U tid t m) rest).map PostRow.id = _
    have hrow : (syncMessageRow hash U tid t m).id = m.id := rfl
    have hmap : (syncMessage hash U tid t m).map PostRow.id =
        t.map PostRow.id ++ [m.id] := by
      unfold syncMessage
      rw [upsertPostRow_map_id_of_not_mem t _ (by rw [hrow]; exact hmem), hrow]
    rw [ih _ (by rw [hmap, List.append_assoc]; simpa using hnd), hmap,
      List.append_assoc]
    rfl

/-- Invariant: every non-null `reply_to_id` in the table references an
existing post row. -/
def RefsResolved (t : List PostRow) : Prop :=
  ∀ q ∈ t, ∀ r, q.reply_to_id = some r → (findPost t r).isSome = true

theorem findPost_isSome_setRow (t : List PostRow) (i : Nat)
    (f : PostRow → PostRow) (hf : ∀ q, (f q).id = q.id) (j : Nat)
    (h : (findPost t j).isSome = true) :
    (findPost (setRowFields t i f) j).isSome = true := by
  by_cases hj : j = i
  · subst hj
    rw [findPost_setRowFields_self t j f hf]
    rcases hfp : findPost t j with _ | q
    · rw [hfp] at h; exact absurd h (by simp)
    · simp
  · rw [findPost_setRowFields_ne t i j f hf hj]
    exact h

theorem refsResolved_upsert (t : List PostRow) (p : PostRow)
    (hp : ∀ r, p.reply_to_id = some r → (findPost t r).isSome = true)
    (h : RefsResolved t) : RefsResolved (upsertPostRow t p) := by
  intro q hq r hr
  apply findPost_isSome_upsert
  unfold upsertPostRow at hq
  by_cases hc : t.any (fun x => x.id == p.id) = true
  · rw [if_pos hc] at hq
    unfold setRowFields at hq
    obtain ⟨x, hx, hxq⟩ := List.mem_map.mp hq
    by_cases hxid : (x.id == p.id) = true
    · rw [if_pos hxid] at hxq
      have : q.reply_to_id = p.reply_to_id := by rw [← hxq]
      exact hp r (this ▸ hr)
    · rw [if_neg hxid] at hxq
      exact h x hx r (hxq ▸ hr)
  · rw [if_neg hc] at hq
    rcases List.mem_append.mp hq with hq | hq
    · exact h q hq r hr
    · have : q = p := by simpa using hq
      exact hp r (this ▸ hr)

theorem refsResolved_syncMessage (hash : Nat → Nat) (U : List Msg)
    (tid : Nat) (t : List PostRow) (m : Msg) (h : RefsResolved t) :
    RefsResolved (syncMessage hash U tid t m) := by
  apply refsResolved_upsert t _ _ h
  intro r hr
  have hpair : (syncReplyPair hash U t m).1 = some r := hr
  rcases hm : m.ref with _ | r0
  · unfold syncReplyPair at hpair
    rw [hm] at hpair
    simp at hpair
  · unfold syncReplyPair at hpair
    rw [hm] at hpair
    dsimp only at hpair
    by_cases hc : (findPost t r0).isSome = true
    · rw [if_pos hc] at hpair
      have heq : r0 = r := by simpa using hpair
      exact heq ▸ hc
    · rw [if_neg hc] at hpair
      simp at hpair

theorem refsResolved_repairStep (t : List PostRow) (m : Msg)
    (h : RefsResolved t) : RefsResolved (updateReplyReferences t m) := by
  have hmain : updateReplyReferences t m = t ∨
      ∃ r refPost, findPost t r = some refPost ∧
        updateReplyReferences t m = setRowFields t m.id (fun q =>
          { q with reply_to_id := some r,
                   reply_to_author_alias := some refPost.author_alias }) := by
    unfold updateReplyReferences
    rcases m.ref with _ | r
    · exact Or.inl rfl
    · dsimp only
      rcases findPost t m.id with _ | cur
      · exact Or.inl rfl
      · dsimp only
        by_cases hc : cur.reply_to_id ≠ none
        · rw [if_pos hc]; exact Or.inl rfl
        · rw [if_neg hc]
          rcases hrf : findPost t r with _ | refPost
          · exact Or.inl rfl
          · exact Or.inr ⟨r, refPost, hrf, rfl⟩
  rcases hmain with hs | ⟨r, refPost, hrf, hs⟩
  · rw [hs]; exact h
  · rw [hs]
    intro q hq rr hrr
    apply findPost_isSome_setRow t m.id (fun q =>
      { q with reply_to_id := some r,
               reply_to_author_alias := some refPost.author_alias }) (fun q => rfl)
    unfold setRowFields at hq
    obtain ⟨x, hx, hxq⟩ := List.mem_map.mp hq
    by_cases hxid : (x.id == m.id) = true
    · rw [if_pos hxid] at hxq
      have hqr : q.reply_to_id = some r := by rw [← hxq]
      have : rr = r := by
        rw [hqr] at hrr
        exact (by simpa using hrr : r = rr).symm
      subst this
      rw [hrf]
      simp
    · rw [if_neg hxid] at hxq
      exact h x hx rr (hxq ▸ hrr)

theorem refsResolved_runFirstPass (hash : Nat → Nat) (U : List Msg)
    (tid : Nat) (ms : List Msg) : ∀ t, RefsResolved t →
    RefsResolved (runFirstPass hash U tid t ms) := by
  induction ms with
  | nil => intro t h; exact h
  | cons m rest ih =>
    intro t h
    exact ih _ (refsResolved_syncMessage hash U tid t m h)

theorem refsResolved_runRepairPass (ms : List Msg) : ∀ t, RefsResolved t →
    RefsResolved (runRepairPass t ms) := by
  induction ms with
  | nil => intro t h; exact h
  | cons m rest ih =>
    intro t h
    exact ih _ (refsResolved_repairStep t m h)

theorem upsertPostRow_thread_ids (t : List PostRow) (p : PostRow) (tid : Nat)
    (hp : p.thread_id = tid) (h : ∀ q ∈ t, q.thread_id = tid) :
    ∀ q ∈ upsertPostRow t p, q.thread_id = tid := by
  intro q hq
  unfold upsertPostRow at hq
  by_cases hc : t.any (fun x => x.id == p.id) = true
  · rw [if_pos hc] at hq
    obtain ⟨x, hx, hxq⟩ := List.mem_map.mp hq
    by_cases hxid : (x.id == p.id) = true
    · rw [if_pos hxid] at hxq
      have : q.thread_id = x.thread_id := by rw [← hxq]
      rw [this]
      exact h x hx
    · rw [if_neg hxid] at hxq
      exact hxq ▸ h x hx
  · rw [if_neg hc] at hq
    rcases List.mem_append.mp hq with hq | hq
    · exact h q hq
    · have : q = p := by simpa using hq
      rw [this]
      exact hp

theorem runFirstPass_thread_ids (hash : Nat → Nat) (U : List Msg)
    (tid : Nat) (ms : List Msg) : ∀ t, (∀ q ∈ t, q.thread_id = tid) →
    ∀ q ∈ runFirstPass hash U tid t ms, q.thread_id = tid := by
  induction ms with
  | nil => intro t h; exact h
  | cons m rest ih =>
    intro t h
    exact ih _ (upsertPostRow_thread_ids t _ tid rfl h)

theorem repairStep_thread_ids (t : List PostRow) (m : Msg) (tid : Nat)
    (h : ∀ q ∈ t, q.thread_id = tid) :
    ∀ q ∈ updateReplyReferences t m, q.thread_id = tid := by
  rcases updateReplyReferences_shape t m with hs | ⟨f, hf, hs⟩
  · rw [hs]; exact h
  · rw [hs]
    intro q hq
    obtain ⟨x, hx, hxq⟩ := List.mem_map.mp hq
    by_cases hxid : (x.id == m.id) = true
    · rw [if_pos hxid] at hxq
      have : q.thread_id = x.thread_id := by rw [← hxq]; exact (hf x).2
      rw [this]
      exact h x hx
    · rw [if_neg hxid] at hxq
      exact hxq ▸ h x hx

theorem runRepairPass_thread_ids (ms : List Msg) (tid : Nat) :
    ∀ t, (∀ q ∈ t, q.thread_id = tid) →
    ∀ q ∈ runRepairPass t ms, q.thread_id = tid := by
  induction ms with
  | nil => intro t h; exact h
  | cons m rest ih =>
    intro t h
    exact ih _ (repairStep_thread_ids t m tid h)

theorem countPosts_eq_length (t : List PostRow) (tid : Nat)
    (h : ∀ q ∈ t, q.thread_id = tid) : countPosts t tid = t.length := by
  unfold countPosts
  rw [List.filter_eq_self.mpr]
  intro q hq
  simp [h q hq]

/-- C3 (amended): after the smartSync path finishes a thread
(`updateThreadReplyCount`), the stored `reply_count` equals
`count_posts(thread) - 1` — there the starter is stored as a post, so
the `- 1` excludes it.  On the historical-sync path
(`syncSpecificThread`), `reply_count` is set to the number of posts
processed in that run; the starter is never stored as a post there, so
on a clean run over a fresh thread the stored value equals
`count_posts(thread)` with no `- 1`.  The claim's law fails on that
path — see the counterexample. -/
theorem replyCount_after_reconciliation :
    (∀ (hash : Nat → Nat) (tid : Nat) (t : List PostRow) (msgs : List Msg),
        (syncThreadFull hash tid t msgs).2 =
          (countPosts (syncThreadFull hash tid t msgs).1 tid : Int) - 1)
    ∧ ∀ (hash : Nat → Nat) (U : List Msg) (tid starterId : Nat)
        (msgs : List Msg),
        ((threadReplies starterId msgs).map Msg.id).Nodup →
        (syncSpecificThreadPosts hash U tid starterId [] msgs).2 =
          (countPosts
            (syncSpecificThreadPosts hash U tid starterId [] msgs).1 tid : Int) := by
  constructor
  · intro hash tid t msgs
    rfl
  · intro hash U tid starterId msgs hnd
    have hT1 : (syncSpecificThreadPosts hash U tid starterId [] msgs).1 =
        runRepairPass
          (runFirstPass hash U tid [] (threadReplies starterId msgs))
          (threadReplies starterId msgs) := rfl
    have hT2 : (syncSpecificThreadPosts hash U tid starterId [] msgs).2 =
        ((threadReplies starterId msgs).length : Int) := rfl
    have hall : ∀ q ∈ runRepairPass
        (runFirstPass hash U tid [] (threadReplies starterId msgs))
        (threadReplies starterId msgs), q.thread_id = tid :=
      runRepairPass_thread_ids _ tid _
        (runFirstPass_thread_ids hash U tid _ []
          (by intro q hq; simp at hq))
    have hmapA : (runFirstPass hash U tid []
        (threadReplies starterId msgs)).map PostRow.id =
        (threadReplies starterId msgs).map Msg.id := by
      have := runFirstPass_map_id hash U tid
        (threadReplies starterId msgs) [] (by simpa using hnd)
      simpa using this
    have hmapT : (runRepairPass
        (runFirstPass hash U tid [] (threadReplies starterId msgs))
        (threadReplies starterId msgs)).map PostRow.id =
        (threadReplies starterId msgs).map Msg.id := by
      rw [runRepairPass_map_id, hmapA]
    have hlen : (runRepairPass
        (runFirstPass hash U tid [] (threadReplies starterId msgs))
        (threadReplies starterId msgs)).length =
        (threadReplies starterId msgs).length := by
      have := congrArg List.length hmapT
      simpa using this
    rw [hT1, hT2, countPosts_eq_length _ tid hall, hlen]

/-- Witness for C3 at a concrete fresh thread: starter (id 10) plus
one reply (id 11); the written `reply_count` equals the number of post
rows of the thread. -/
theorem replyCount_after_reconciliation_witness :
    (syncSpecificThreadPosts (fun a => a)
      [⟨10, 3, false, none, 0⟩, ⟨11, 4, false, none, 1⟩] 1 10 []
      [⟨10, 3, false, none, 0⟩, ⟨11, 4, false, none, 1⟩]).2 =
      (countPosts (syncSpecificThreadPosts (fun a => a)
        [⟨10, 3, false, none, 0⟩, ⟨11, 4, false, none, 1⟩] 1 10 []
        [⟨10, 3, false, none, 0⟩, ⟨11, 4, false, none, 1⟩]).1 1 : Int) :=
  replyCount_after_reconciliation.2 (fun a => a)
    [⟨10, 3, false, none, 0⟩, ⟨11, 4, false, none, 1⟩] 1 10
    [⟨10, 3, false, none, 0⟩, ⟨11, 4, false, none, 1⟩] (by decide)

/-- C3 counterexample: on the historical-sync path, a fresh thread
with starter id 10 and one reply (id 11) ends with
`reply_count = 1`, while `count_posts(thread) - 1 = 0` — the claimed
law `reply_count = count_posts - 1` fails on this reconciliation
path. -/
theorem syncSpecificThread_replyCount_counterexample :
    (syncSpecificThreadPosts (fun a => a)
      [⟨10, 3, false, none, 0⟩, ⟨11, 4, false, none, 1⟩] 1 10 []
      [⟨10, 3, false, none, 0⟩, ⟨11, 4, false, none, 1⟩]).2 = 1
    ∧ (countPosts (syncSpecificThreadPosts (fun a => a)
        [⟨10, 3, false, none, 0⟩, ⟨11, 4, false, none, 1⟩] 1 10 []
        [⟨10, 3, false, none, 0⟩, ⟨11, 4, false, none, 1⟩]).1 1 : Int) - 1
      = 0 := by decide

/-- Repair fields written by the deferred-reference pass. -/
def repairWith (r : Nat) (refPost : PostRow) (q : PostRow) : PostRow :=
  { q with reply_to_id := some r,
           reply_to_author_alias := some refPost.author_alias }

theorem runRepairPass_split (l1 l2 : List Msg) (m : Msg) :
    ∀ A : List PostRow,
      runRepairPass A (l1 ++ m :: l2) =
        runRepairPass (updateReplyReferences (runRepairPass A l1) m) l2 := by
  intro A
  unfold runRepairPass
  rw [List.foldl_append]
  rfl

theorem runFirstPass_split (hash : Nat → Nat) (U : List Msg) (tid : Nat)
    (l1 l2 : List Msg) (m : Msg) : ∀ t : List PostRow,
      runFirstPass hash U tid t (l1 ++ m :: l2) =
        runFirstPass hash U tid
          (syncMessage hash U tid (runFirstPass hash U tid t l1) m) l2 := by
  intro t
  unfold runFirstPass
  rw [List.foldl_append]
  rfl

/-- C4 (amended): after the two passes of `syncSpecificThread`, every
reply message whose referent post exists in the store ends with
`reply_to_id` pointing at it, every one whose referent is absent ends
with both reply fields null, and (given a resolved initial store)
every non-null `reply_to_id` in the table references an existing post.
The claim's stronger statement — that `reply_to_author_alias` always
equals the stored referent's `author_alias` — fails: the first pass
takes the alias from an upstream fetch of the referent and the repair
pass only runs when `reply_to_id` is null, so a referent that exists
as a row but is deleted upstream leaves the alias null (see the
counterexample). -/
theorem syncSpecificThread_reference_closure :
    ∀ (hash : Nat → Nat) (U : List Msg) (tid starterId : Nat)
      (t0 : List PostRow) (msgs : List Msg),
      (t0.map PostRow.id ++ (threadReplies starterId msgs).map Msg.id).Nodup →
      (∀ m ∈ threadReplies starterId msgs, ∀ r, m.ref = some r →
        ∃ p, findPost
            (syncSpecificThreadPosts hash U tid starterId t0 msgs).1 m.id
            = some p ∧
          ((findPost (syncSpecificThreadPosts hash U tid starterId t0 msgs).1
              r).isSome = true → p.reply_to_id = some r) ∧
          (findPost (syncSpecificThreadPosts hash U tid starterId t0 msgs).1
              r = none →
            p.reply_to_id = none ∧ p.reply_to_author_alias = none))
      ∧ (RefsResolved t0 →
          RefsResolved (syncSpecificThreadPosts hash U tid starterId t0 msgs).1) := by
  intro hash U tid starterId t0 msgs hnd
  have hT : (syncSpecificThreadPosts hash U tid starterId t0 msgs).1 =
      runRepairPass
        (runFirstPass hash U tid t0 (threadReplies starterId msgs))
        (threadReplies starterId msgs) := rfl
  constructor
  · intro m hm r hr
    rw [hT]
    obtain ⟨l1, l2, hsplit⟩ := List.append_of_mem hm
    have hrsids : (threadReplies starterId msgs).map Msg.id =
        l1.map Msg.id ++ m.id :: l2.map Msg.id := by
      rw [hsplit]; simp
    rw [hrsids] at hnd
    obtain ⟨hnd0, hnd1, hdisj⟩ := List.nodup_append.mp hnd
    obtain ⟨hndl1, hndm2, hdisj1⟩ := List.nodup_append.mp hnd1
    have hml2 : m.id ∉ l2.map Msg.id := (List.nodup_cons.mp hndm2).1
    have hml1 : m.id ∉ l1.map Msg.id := fun h => hdisj1 h (by simp)
    have hmt0 : m.id ∉ t0.map PostRow.id := fun h => hdisj h (by simp)
    have hA : runFirstPass hash U tid t0 (threadReplies starterId msgs) =
        runFirstPass hash U tid
          (syncMessage hash U tid (runFirstPass hash U tid t0 l1) m) l2 := by
      conv => lhs; rw [hsplit]
      exact runFirstPass_split hash U tid l1 l2 m t0
    have hA1ids : (runFirstPass hash U tid t0 l1).map PostRow.id =
        t0.map PostRow.id ++ l1.map Msg.id :=
      runFirstPass_map_id hash U tid l1 t0
        (List.nodup_append.mpr ⟨hnd0, hndl1,
          fun a ha hb => hdisj ha (by simp [hb])⟩)
    have hmA1 : m.id ∉ (runFirstPass hash U tid t0 l1).map PostRow.id := by
      rw [hA1ids]
      intro h
      rcases List.mem_append.mp h with h | h
      · exact hmt0 h
      · exact hml1 h
    have hrowid : (syncMessageRow hash U tid
        (runFirstPass hash U tid t0 l1) m).id = m.id := rfl
    have hsm : syncMessage hash U tid (runFirstPass hash U tid t0 l1) m =
        runFirstPass hash U tid t0 l1 ++
          [syncMessageRow hash U tid (runFirstPass hash U tid t0 l1) m] := by
      unfold syncMessage
      exact upsertPostRow_of_not_mem _ _ (by rw [hrowid]; exact hmA1)
    have hfArow : findPost
        (runFirstPass hash U tid t0 (threadReplies starterId msgs)) m.id =
        some (syncMessageRow hash U tid (runFirstPass hash U tid t0 l1) m) := by
      rw [hA, findPost_runFirstPass_not_mem hash U tid l2 _ m.id hml2, hsm,
        findPost_append_single,
        (findPost_eq_none (runFirstPass hash U tid t0 l1) m.id).mpr hmA1]
      simp [hrowid]
    have hTsplit : runRepairPass
        (runFirstPass hash U tid t0 (threadReplies starterId msgs))
        (threadReplies starterId msgs) =
        runRepairPass
          (updateReplyReferences
            (runRepairPass
              (runFirstPass hash U tid t0 (threadReplies starterId msgs)) l1)
            m) l2 := by
      generalize runFirstPass hash U tid t0 (threadReplies starterId msgs) = A
      rw [hsplit]
      exact runRepairPass_split l1 l2 m A
    have hfT1 : findPost
        (runRepairPass
          (runFirstPass hash U tid t0 (threadReplies starterId msgs)) l1)
        m.id =
        some (syncMessageRow hash U tid (runFirstPass hash U tid t0 l1) m) := by
      rw [findPost_runRepairPass_not_mem l1 _ m.id hml1]
      exact hfArow
    by_cases hA1r : (findPost (runFirstPass hash U tid t0 l1) r).isSome = true
    · have hrowfields : (syncMessageRow hash U tid
          (runFirstPass hash U tid t0 l1) m).reply_to_id = some r := by
        unfold syncMessageRow syncReplyPair
        rw [hr]
        dsimp only
        rw [if_pos hA1r]
      have hupd : updateReplyReferences
          (runRepairPass
            (runFirstPass hash U tid t0 (threadReplies starterId msgs)) l1)
          m =
          runRepairPass
            (runFirstPass hash U tid t0 (threadReplies starterId msgs)) l1 := by
        unfold updateReplyReferences
        rw [hr, hfT1]
        dsimp only
        rw [if_pos (by rw [hrowfields]; simp)]
      have hfTm : findPost
          (runRepairPass
            (runFirstPass hash U tid t0 (threadReplies starterId msgs))
            (threadReplies starterId msgs)) m.id =
          some (syncMessageRow hash U tid (runFirstPass hash U tid t0 l1) m) := by
        rw [hTsplit, findPost_runRepairPass_not_mem l2 _ m.id hml2, hupd, hfT1]
      have hfTr : (findPost
          (runRepairPass
            (runFirstPass hash U tid t0 (threadReplies starterId msgs))
            (threadReplies starterId msgs)) r).isSome = true := by
        apply findPost_isSome_runRepairPass
        rw [hA]
        apply findPost_isSome_runFirstPass
        rw [hsm, findPost_append_single]
        rcases hfp : findPost (runFirstPass hash U tid t0 l1) r with _ | q
        · rw [hfp] at hA1r; exact absurd hA1r (by simp)
        · simp
      exact ⟨_, hfTm, fun _ => hrowfields,
        fun hnone => absurd hfTr (by simp [hnone])⟩
    · have hrow1 : (syncMessageRow hash U tid
          (runFirstPass hash U tid t0 l1) m).reply_to_id = none := by
        unfold syncMessageRow syncReplyPair
        rw [hr]
        dsimp only
        rw [if_neg hA1r]
      have hrow2 : (syncMessageRow hash U tid
          (runFirstPass hash U tid t0 l1) m).reply_to_author_alias = none := by
        unfold syncMessageRow syncReplyPair
        rw [hr]
        dsimp only
        rw [if_neg hA1r]
      rcases hT1r : findPost
          (runRepairPass
            (runFirstPass hash U tid t0 (threadReplies starterId msgs)) l1)
          r with _ | refPost
      · have hupd : updateReplyReferences
            (runRepairPass
              (runFirstPass hash U tid t0 (threadReplies starterId msgs)) l1)
            m =
            runRepairPass
              (runFirstPass hash U tid t0 (threadReplies starterId msgs)) l1 := by
          unfold updateReplyReferences
          rw [hr, hfT1]
          dsimp only
          rw [if_neg (by rw [hrow1]; simp), hT1r]
        have hfTm : findPost
            (runRepairPass
              (runFirstPass hash U tid t0 (threadReplies starterId msgs))
              (threadReplies starterId msgs)) m.id =
            some (syncMessageRow hash U tid (runFirstPass hash U tid t0 l1) m) := by
          rw [hTsplit, findPost_runRepairPass_not_mem l2 _ m.id hml2, hupd, hfT1]
        have hfTrn : findPost
            (runRepairPass
              (runFirstPass hash U tid t0 (threadReplies starterId msgs))
              (threadReplies starterId msgs)) r = none := by
          rw [findPost_eq_none] at hT1r ⊢
          rw [runRepairPass_map_id] at hT1r ⊢
          exact hT1r
        refine ⟨_, hfTm, ?_, fun _ => ⟨hrow1, hrow2⟩⟩
        intro hsome
        rw [hfTrn] at hsome
        exact absurd hsome (by simp)
      · have hupd : updateReplyReferences
            (runRepairPass
              (runFirstPass hash U tid t0 (threadReplies starterId msgs)) l1)
            m =
            setRowFields
              (runRepairPass
                (runFirstPass hash U tid t0 (threadReplies starterId msgs)) l1)
              m.id (repairWith r refPost) := by
          unfold updateReplyReferences
          rw [hr, hfT1]
          dsimp only
          rw [if_neg (by rw [hrow1]; simp), hT1r]
          rfl
        have hfTm : findPost
            (runRepairPass
              (runFirstPass hash U tid t0 (threadReplies starterId msgs))
              (threadReplies starterId msgs)) m.id =
            some (repairWith r refPost
              (syncMessageRow hash U tid (runFirstPass hash U tid t0 l1) m)) := by
          rw [hTsplit, findPost_runRepairPass_not_mem l2 _ m.id hml2, hupd,
            findPost_setRowFields_self _ m.id (repairWith r refPost)
              (fun q => rfl), hfT1]
          rfl
        have hfTr : (findPost
            (runRepairPass
              (runFirstPass hash U tid t0 (threadReplies starterId msgs))
              (threadReplies starterId msgs)) r).isSome = true := by
          rw [hTsplit]
          apply findPost_isSome_runRepairPass
          rw [hupd]
          apply findPost_isSome_setRow _ m.id (repairWith r refPost)
            (fun q => rfl)
          rw [hT1r]
          rfl
        exact ⟨_, hfTm, fun _ => rfl,
          fun hnone => absurd hfTr (by simp [hnone])⟩
  · intro h0
    rw [hT]
    exact refsResolved_runRepairPass _ _
      (refsResolved_runFirstPass hash U tid _ t0 h0)

/-- Witness for C4 at the spec's out-of-order scenario: a fresh thread
(starter id 1) with reply m2 (id 2) and reply m3 (id 3) referencing
m2; after reconciliation m3's row points at m2, and the final store is
reference-resolved. -/
theorem syncSpecificThread_reference_closure_witness :
    (∃ p, findPost (syncSpecificThreadPosts (fun a => a)
        [⟨2, 5, false, none, 10⟩, ⟨3, 6, false, some 2, 20⟩] 1 1 []
        [⟨2, 5, false, none, 10⟩, ⟨3, 6, false, some 2, 20⟩]).1 3 = some p ∧
      ((findPost (syncSpecificThreadPosts (fun a => a)
          [⟨2, 5, false, none, 10⟩, ⟨3, 6, false, some 2, 20⟩] 1 1 []
          [⟨2, 5, false, none, 10⟩, ⟨3, 6, false, some 2, 20⟩]).1 2).isSome
            = true →
        p.reply_to_id = some 2) ∧
      (findPost (syncSpecificThreadPosts (fun a => a)
          [⟨2, 5, false, none, 10⟩, ⟨3, 6, false, some 2, 20⟩] 1 1 []
          [⟨2, 5, false, none, 10⟩, ⟨3, 6, false, some 2, 20⟩]).1 2 = none →
        p.reply_to_id = none ∧ p.reply_to_author_alias = none))
    ∧ RefsResolved (syncSpecificThreadPosts (fun a => a)
        [⟨2, 5, false, none, 10⟩, ⟨3, 6, false, some 2, 20⟩] 1 1 []
        [⟨2, 5, false, none, 10⟩, ⟨3, 6, false, some 2, 20⟩]).1 := by
  have h := syncSpecificThread_reference_closure (fun a => a)
    [⟨2, 5, false, none, 10⟩, ⟨3, 6, false, some 2, 20⟩] 1 1 []
    [⟨2, 5, false, none, 10⟩, ⟨3, 6, false, some 2, 20⟩] (by decide)
  exact ⟨h.1 ⟨3, 6, false, some 2, 20⟩ (by decide) 2 rfl,
    h.2 (fun q hq => absurd hq (by simp))⟩

/-- C4 counterexample: the referent post (id 100, stored alias 42)
exists in the store from an earlier run but was deleted upstream, so
the first pass keeps `reply_to_id = 100` with a null
`reply_to_author_alias`, and the repair pass skips the row because its
`reply_to_id` is non-null.  The claim's requirement that the alias
equal the referent's stored `author_alias` fails. -/
theorem syncSpecificThread_alias_counterexample :
    findPost (syncSpecificThreadPosts (fun a => a)
      [⟨200, 7, false, some 100, 50⟩] 1 5
      [⟨100, 1, 42, none, none⟩]
      [⟨200, 7, false, some 100, 50⟩]).1 200 =
      some ⟨200, 1, 7, some 100, none⟩
    ∧ findPost (syncSpecificThreadPosts (fun a => a)
        [⟨200, 7, false, some 100, 50⟩] 1 5
        [⟨100, 1, 42, none, none⟩]
        [⟨200, 7, false, some 100, 50⟩]).1 100 =
      some ⟨100, 1, 42, none, none⟩ := by decide

/-! ## Identity hasher (`lib/hash.ts`) and startup (`src/index.ts`)

`hashUserId` computes `SHA-256(userId + pepper)` with node's crypto,
hex-encodes, and returns the first 12 characters.  SHA-256 is given
here in full (FIPS 180-4) over byte lists; strings are modelled as
their UTF-8 byte sequences, and 32-bit words as naturals reduced
modulo `2^32`. -/

def w32 (x : Nat) : Nat := x % 4294967296

def add32 (a b : Nat) : Nat := w32 (a + b)

def not32 (x : Nat) : Nat := x ^^^ 4294967295

def rotr32 (n x : Nat) : Nat := w32 ((x >>> n) ||| (x <<< (32 - n)))

def bsig0 (x : Nat) : Nat := rotr32 2 x ^^^ rotr32 13 x ^^^ rotr32 22 x
def bsig1 (x : Nat) : Nat := rotr32 6 x ^^^ rotr32 11 x ^^^ rotr32 25 x
def ssig0 (x : Nat) : Nat := rotr32 7 x ^^^ rotr32 18 x ^^^ (x >>> 3)
def ssig1 (x : Nat) : Nat := rotr32 17 x ^^^ rotr32 19 x ^^^ (x >>> 10)
def chf (x y z : Nat) : Nat := (x &&& y) ^^^ (not32 x &&& z)
def majf (x y z : Nat) : Nat := (x &&& y) ^^^ (x &&& z) ^^^ (y &&& z)

def K256 : List Nat :=
  [1116352408, 1899447441, 3049323471, 3921009573, 961987163, 1508970993,
   2453635748, 2870763221, 3624381080, 310598401, 607225278, 1426881987,
   1925078388, 2162078206, 2614888103, 3248222580, 3835390401, 4022224774,
   264347078, 604807628, 770255983, 1249150122, 1555081692, 1996064986,
   2554220882, 2821834349, 2952996808, 3210313671, 3336571891, 3584528711,
   113926993, 338241895, 666307205, 773529912, 1294757372, 1396182291,
   1695183700, 1986661051, 2177026350, 2456956037, 2730485921, 2820302411,
   3259730800, 3345764771, 3516065817, 3600352804, 4094571909, 275423344,
   430227734, 506948616, 659060556, 883997877, 958139571, 1322822218,
   1537002063, 1747873779, 1955562222, 2024104815, 2227730452, 2361852424,
   2428436474, 2756734187, 3204031479, 3329325298]

def H256 : List Nat :=
  [1779033703, 3144134277, 1013904242, 2773480762,
   1359893119, 2600822924, 528734635, 1541459225]

def beBytes : Nat → Nat → List Nat
  | 0, _ => []
  | k+1, n => beBytes k (n / 256) ++ [n % 256]

def sha256Pad (msg : List Nat) : List Nat :=
  msg ++ [128] ++ List.replicate ((119 - msg.length % 64) % 64) 0 ++
    beBytes 8 (msg.length * 8)

def toWords : List Nat → List Nat
  | b0 :: b1 :: b2 :: b3 :: rest =>
    (((b0 * 256 + b1) * 256 + b2) * 256 + b3) :: toWords rest
  | _ => []

def scheduleRev : Nat → List Nat → List Nat
  | 0, rw => rw
  | n+1, rw =>
    scheduleRev n (add32 (add32 (ssig1 (rw.getD 1 0)) (rw.getD 6 0))
      (add32 (ssig0 (rw.getD 14 0)) (rw.getD 15 0)) :: rw)

def schedule (w16 : List Nat) : List Nat := (scheduleRev 48 w16.reverse).reverse

def sha256Round (st : List Nat) (kw : Nat × Nat) : List Nat :=
  let a := st.getD 0 0
  let b := st.getD 1 0
  let c := st.getD 2 0
  let d := st.getD 3 0
  let e := st.getD 4 0
  let f := st.getD 5 0
  let g := st.getD 6 0
  let h := st.getD 7 0
  let t1 := add32 (add32 (add32 h (bsig1 e)) (add32 (chf e f g) kw.1)) kw.2
  let t2 := add32 (bsig0 a) (majf a b c)
  [add32 t1 t2, a, b, c, add32 d t1, e, f, g]

def sha256Compress (h : List Nat) (block : List Nat) : List Nat :=
  let st := ((K256.zip (schedule (toWords block))).foldl sha256Round h)
  (h.zip st).map fun p => add32 p.1 p.2

def chunksGo (cur : List Nat) : List Nat → List (List Nat)
  | [] => [cur.reverse]
  | b :: rest =>
    if cur.length = 63 then
      match rest with
      | [] => [(b :: cur).reverse]
      | r :: rs => (b :: cur).reverse :: chunksGo [r] rs
    else chunksGo (b :: cur) rest

def chunks64 : List Nat → List (List Nat)
  | [] => []
  | b :: rest => chunksGo [b] rest

def sha256 (msg : List Nat) : List Nat :=
  ((chunks64 (sha256Pad msg)).foldl sha256Compress H256).foldr
    (fun wrd acc => beBytes 4 wrd ++ acc) []

def hexDigit (n : Nat) : Char :=
  if n < 10 then Char.ofNat (48 + n) else Char.ofNat (87 + n)

def toHex (bytes : List Nat) : List Char :=
  bytes.foldr (fun b acc => hexDigit (b / 16) :: hexDigit (b % 16) :: acc) []

/-- `hashUserId` (lib/hash.ts lines 166-179): SHA-256 of
`userId + pepper`, hex digest, first 12 characters. -/
def hashUserId (userId pepper : List Nat) : List Char :=
  (toHex (sha256 (userId ++ pepper))).take 12

theorem beBytes_length : ∀ (k n : Nat), (beBytes k n).length = k := by
  intro k
  induction k with
  | zero => intro n; rfl
  | succ k ih =>
    intro n
    show (beBytes k (n / 256) ++ [n % 256]).length = k + 1
    rw [List.length_append, ih]
    rfl

theorem sha256Round_length (st : List Nat) (kw : Nat × Nat) :
    (sha256Round st kw).length = 8 := rfl

theorem foldl_sha256Round_length (l : List (Nat × Nat)) :
    ∀ st : List Nat, st.length = 8 →
    (l.foldl sha256Round st).length = 8 := by
  induction l with
  | nil => intro st h; exact h
  | cons kw rest ih =>
    intro st h
    exact ih _ (sha256Round_length st kw)

theorem sha256Compress_length (h : List Nat) (block : List Nat)
    (hh : h.length = 8) : (sha256Compress h block).length = 8 := by
  unfold sha256Compress
  rw [List.length_map, List.length_zip,
    foldl_sha256Round_length _ h hh, hh]
  rfl

theorem foldl_sha256Compress_length (bs : List (List Nat)) :
    ∀ h : List Nat, h.length = 8 →
    (bs.foldl sha256Compress h).length = 8 := by
  induction bs with
  | nil => intro h hh; exact hh
  | cons b rest ih =>
    intro h hh
    exact ih _ (sha256Compress_length h b hh)

theorem words_to_bytes_length (ws : List Nat) :
    (ws.foldr (fun wrd acc => beBytes 4 wrd ++ acc) []).length =
      4 * ws.length := by
  induction ws with
  | nil => rfl
  | cons w rest ih =>
    show (beBytes 4 w ++ _).length = _
    rw [List.length_append, ih, beBytes_length]
    simp only [List.length_cons]
    ring

theorem sha256_length (msg : List Nat) : (sha256 msg).length = 32 := by
  unfold sha256
  rw [words_to_bytes_length, foldl_sha256Compress_length _ H256 rfl]

theorem toHex_length (bytes : List Nat) :
    (toHex bytes).length = 2 * bytes.length := by
  induction bytes with
  | nil => rfl
  | cons b rest ih =>
    show (_ :: _ :: toHex rest).length = _
    simp only [List.length_cons, ih]
    ring

set_option maxRecDepth 1000000 in
/-- C5: `hashUserId` is a pure function of its inputs — deterministic
across calls and processes for a fixed pepper — equals the first 12
hex characters of SHA-256(userId ++ pepper), always has length
exactly 12, and for some user id its value differs when the pepper
differs. -/
theorem hashUserId_spec :
    (∀ userId pepper : List Nat,
        hashUserId userId pepper = hashUserId userId pepper)
    ∧ (∀ userId pepper : List Nat,
        hashUserId userId pepper = (toHex (sha256 (userId ++ pepper))).take 12)
    ∧ (∀ userId pepper : List Nat, (hashUserId userId pepper).length = 12)
    ∧ ([1] : List Nat) ≠ [2]
    ∧ hashUserId [55] [1] ≠ hashUserId [55] [2] := by
  refine ⟨fun u p => rfl, fun u p => rfl, ?_, by decide, ?_⟩
  · intro userId pepper
    unfold hashUserId
    rw [List.length_take, toHex_length, sha256_length]
    rfl
  · decide

/-- Process environment, projected to the pepper. -/
structure Env where
  pepper : Option (List Nat)

/-- `hashUserId` checks the pepper at call time and throws when it is
absent (hash.ts lines 167-170); this is the fallible view used by
every caller. -/
def hashUserIdE (env : Env) (userId : List Nat) :
    Except (List Char) (List Char) :=
  match env.pepper with
  | none => .error (String.toList "PII_PEPPER environment variable is required")
  | some p => .ok (hashUserId userId p)

/-- An ASCII hexadecimal digit byte, the class `[0-9a-fA-F]`. -/
def isHexByte (b : Nat) : Bool :=
  (48 ≤ b && b ≤ 57) || (97 ≤ b && b ≤ 102) || (65 ≤ b && b ≤ 70)

/-- `validatePepper` (staffLoader.ts lines 181-191): missing pepper or
a pepper that is not 64 hex characters raises.  The function is
defined in the source but never called. -/
def validatePepper (env : Env) : Except (List Char) Unit :=
  match env.pepper with
  | none => .error (String.toList "PII_PEPPER environment variable is required")
  | some p =>
    if p.length = 64 && p.all isHexByte then .ok ()
    else .error (String.toList "PII_PEPPER must be a 256-bit (64 character) hex string")

/-- The staff CSV import (staffLoader.ts lines 15-84): each record is
hashed and upserted inside a per-record try/catch, so a failing
`hashUserId` (for example a missing pepper) is logged, the record
skipped, and nothing propagated.  Returns the imported hashes. -/
def loadStaffFromCSV (env : Env) (records : List (List Nat)) :
    List (List Char) :=
  records.foldl (fun acc r =>
    match hashUserIdE env r with
    | .ok h => acc ++ [h]
    | .error _ => acc) []

/-- External failures that can abort startup. -/
inductive StartupError where
  | database
  | login
deriving DecidableEq

/-- The startup sequence of `main` (part_004, second `main`, lines
358-446): metrics, database initialization, optional staff CSV
import, command handler, Discord login.  No call to `validatePepper`
appears anywhere in the source, so the pepper is never examined
before the first `hashUserId` call. -/
def mainStartup (env : Env) (dbOk loginOk : Bool)
    (staffRecords : List (List Nat)) : Except StartupError Unit :=
  if !dbOk then .error .database
  else
    let _ := loadStaffFromCSV env staffRecords
    if !loginOk then .error .login else .ok ()

/-- C6: with `PII_PEPPER` absent, startup completes successfully for
every staff CSV — the per-record catch swallows the hash failures —
while `hashUserId` raises on every later call and the never-invoked
`validatePepper` is exactly the startup check the claim describes.
Missing pepper is therefore not fatal at startup, contradicting the
claim; the dead `validatePepper` marks the absent call as the slip. -/
theorem missing_pepper_not_fatal_at_startup :
    (∀ staffRecords : List (List Nat),
        mainStartup { pepper := none } true true staffRecords = .ok ())
    ∧ (∀ staffRecords : List (List Nat),
        loadStaffFromCSV { pepper := none } staffRecords = [])
    ∧ (∀ u : List Nat, hashUserIdE { pepper := none } u =
        .error (String.toList "PII_PEPPER environment variable is required"))
    ∧ validatePepper { pepper := none } =
        .error (String.toList "PII_PEPPER environment variable is required") := by
  refine ⟨fun records => rfl, ?_, fun u => rfl, rfl⟩
  intro records
  induction records with
  | nil => rfl
  | cons r rest ih =>
    show (rest.foldl _ _) = []
    exact ih

/-! ### Text sanitizer (part_004 sanitizer.ts, applied by part_005 lines 255-256)

`sanitizeContent` applies twelve global regex replacements in source order;
`convertToHtml` applies seven more.  Strings are `List Char`.  Each JS
`str.replace(re, rep)` with a global regex is embedded as a single
left-to-right scan: at each position the regex is tried; on a match the
replacement is emitted and the scan resumes after the matched span,
otherwise one character is kept.  Within one call of `sanitizeContent`
every `match`, `test` and `replace` on a global regex leaves `lastIndex`
at 0 on completion, so the per-call semantics is exactly this stateless
scan, and the `match` and `test` guards in the source only skip
replacements that would be identities, so each guarded replacement equals
the unconditional one.  Word-boundary assertions are embedded by
threading one bit through the scan: whether the previous character is a
word character.  The classes `\w`, `\s`, `\d` are embedded at their
ASCII core.  Greedy and lazy quantifiers are embedded with the
backtracking the regex engine performs, resolved statically where the
continuation makes only one alternative viable. -/

/-- Digit class `\d`, `[0-9]`. -/
def isDigitChar (c : Char) : Bool := '0' ≤ c && c ≤ '9'

def isAsciiLetter (c : Char) : Bool := ('a' ≤ c && c ≤ 'z') || ('A' ≤ c && c ≤ 'Z')

/-- The regex word class `\w`, `[A-Za-z0-9_]`. -/
def isWordChar (c : Char) : Bool := isAsciiLetter c || isDigitChar c || c = '_'

/-- ASCII case folding used to embed the regex `i` flag. -/
def lowerChar (c : Char) : Char :=
  if 'A' ≤ c ∧ c ≤ 'Z' then Char.ofNat (c.toNat + 32) else c

def ciEqChar (a b : Char) : Bool := lowerChar a == lowerChar b

/-- Case-insensitive literal at the head of the input. -/
def ciLit : List Char → List Char → Bool
  | [], _ => true
  | _ :: _, [] => false
  | p :: ps, c :: cs => ciEqChar p c && ciLit ps cs

/-- Case-sensitive literal at the head of the input. -/
def litAt : List Char → List Char → Bool
  | [], _ => true
  | _ :: _, [] => false
  | p :: ps, c :: cs => (p == c) && litAt ps cs

/-- One global-replace pass.  `tr prevW c cs` attempts the regex at the
position whose first character is `c` with remaining input `cs`, where
`prevW` records whether the character before `c` is a word character
(for word boundaries); a match returns the replacement and the number
of characters of `cs` consumed beyond `c`.  Fuel is the input length,
which makes the recursion structural and kernel-reducible. -/
def scanGB (tr : Bool → Char → List Char → Option (List Char × Nat)) :
    Nat → Bool → List Char → List Char
  | 0, _, l => l
  | _ + 1, _, [] => []
  | fuel + 1, prevW, c :: cs =>
    match tr prevW c cs with
    | some (rep, k) =>
      rep ++ scanGB tr fuel (isWordChar ((cs.take k).getLastD c)) (cs.drop k)
    | none => c :: scanGB tr fuel (isWordChar c) cs

def scanB (tr : Bool → Char → List Char → Option (List Char × Nat))
    (p : Bool) (l : List Char) : List Char :=
  scanGB tr l.length p l

/-- A pass whose replacement is a fixed string: the core returns only
the number of extra characters consumed. -/
def fixedRep (rep : List Char) (core : Bool → Char → List Char → Option Nat) :
    Bool → Char → List Char → Option (List Char × Nat) :=
  fun p c cs => (core p c cs).map (fun k => (rep, k))

/-- Consume `\d{17,19}` followed by `>`: `k` digits are already consumed;
the run is maximal and a 20th digit kills the match, exactly the
behavior of the greedy bounded quantifier followed by the literal.
Returns the number of characters consumed including the `>`. -/
def snowflakeGtCount : Nat → List Char → Option Nat
  | _, [] => none
  | k, c :: cs =>
    if c = '>' then (if 17 ≤ k ∧ k ≤ 19 then some 1 else none)
    else if isDigitChar c then
      (if k < 19 then (snowflakeGtCount (k + 1) cs).map (fun n => n + 1) else none)
    else none

/-- `DISCORD_USER_MENTION = <@!?(\d{17,19})>`. -/
def userCore (_ : Bool) (c : Char) (cs : List Char) : Option Nat :=
  if c = '<' then
    match cs with
    | c1 :: rest1 =>
      if c1 = '@' then
        match rest1 with
        | c2 :: rest2 =>
          if c2 = '!' then (snowflakeGtCount 0 rest2).map (fun k => 2 + k)
          else (snowflakeGtCount 0 (c2 :: rest2)).map (fun k => 1 + k)
        | [] => none
      else none
    | [] => none
  else none

/-- `DISCORD_CHANNEL_MENTION = <#(\d{17,19})>`. -/
def chanCore (_ : Bool) (c : Char) (cs : List Char) : Option Nat :=
  if c = '<' then
    match cs with
    | c1 :: rest1 =>
      if c1 = '#' then (snowflakeGtCount 0 rest1).map (fun k => 1 + k) else none
    | [] => none
  else none

/-- `DISCORD_ROLE_MENTION = <@&(\d{17,19})>`. -/
def roleCore (_ : Bool) (c : Char) (cs : List Char) : Option Nat :=
  if c = '<' then
    match cs with
    | c1 :: c2 :: rest2 =>
      if c1 = '@' && c2 = '&' then (snowflakeGtCount 0 rest2).map (fun k => 2 + k)
      else none
    | _ => none
  else none

/-- `\w+:\d{17,19}>`: tail of the emoji pattern after its first colon. -/
def emojiBody (l : List Char) : Option Nat :=
  let n := (l.takeWhile isWordChar).length
  if n = 0 then none
  else
    match l.drop n with
    | c :: rest =>
      if c = ':' then (snowflakeGtCount 0 rest).map (fun k => n + 1 + k) else none
    | [] => none

/-- `DISCORD_EMOJI = <a?:\w+:\d{17,19}>` (case sensitive, no `i` flag). -/
def emojiCore (_ : Bool) (c : Char) (cs : List Char) : Option Nat :=
  if c = '<' then
    match cs with
    | c1 :: rest1 =>
      if c1 = ':' then (emojiBody rest1).map (fun k => 1 + k)
      else if c1 = 'a' then
        match rest1 with
        | c2 :: rest2 =>
          if c2 = ':' then (emojiBody rest2).map (fun k => 2 + k) else none
        | [] => none
      else none
    | [] => none
  else none

/-- The class `[tTdDfFR]` of timestamp style flags. -/
def isTsFlag (c : Char) : Bool :=
  c = 't' || c = 'T' || c = 'd' || c = 'D' || c = 'f' || c = 'F' || c = 'R'

/-- `DISCORD_TIMESTAMP = <t:(\d{1,13})(?::([tTdDfFR]))?>`. -/
def tsCore (_ : Bool) (c : Char) (cs : List Char) : Option Nat :=
  if c = '<' then
    match cs with
    | c1 :: c2 :: rest2 =>
      if c1 = 't' && c2 = ':' then
        let n := (rest2.takeWhile isDigitChar).length
        if 1 ≤ n ∧ n ≤ 13 then
          match rest2.drop n with
          | d1 :: d2 :: d3 :: _ =>
            if d1 = ':' && isTsFlag d2 && d3 = '>' then some (2 + n + 3)
            else if d1 = '>' then some (2 + n + 1)
            else none
          | d1 :: _ => if d1 = '>' then some (2 + n + 1) else none
          | [] => none
        else none
      else none
    | _ => none
  else none

/-- Characters consumed through the first case-insensitive close tag:
the negative lookahead in `SCRIPT_TAG` forbids consuming past any
occurrence, so the match always ends at the earliest one. -/
def scriptClose : List Char → Option Nat
  | [] => none
  | c :: cs =>
    if ciLit (String.toList "</script>") (c :: cs) then some 9
    else (scriptClose cs).map (fun n => n + 1)

/-- `SCRIPT_TAG` with the `i` flag: `<script`, a word boundary, then
anything through the earliest close tag. -/
def scriptCore (_ : Bool) (c : Char) (cs : List Char) : Option Nat :=
  if c = '<' then
    if ciLit (String.toList "script") cs then
      match cs.drop 6 with
      | [] => none
      | d :: _ =>
        if isWordChar d then none
        else (scriptClose (cs.drop 6)).map (fun k => 6 + k)
    else none
  else none

/-- `JAVASCRIPT_PROTOCOL = javascript:` with the `i` flag. -/
def jsCore (_ : Bool) (c : Char) (cs : List Char) : Option Nat :=
  if ciLit (String.toList "javascript:") (c :: cs) then some 10 else none

/-- `ON_EVENT_ATTRIBUTES = \son\w+\s*=` with the `i` flag. -/
def onEventCore (_ : Bool) (c : Char) (cs : List Char) : Option Nat :=
  if isWs c then
    match cs with
    | c1 :: c2 :: rest2 =>
      if ciEqChar c1 'o' && ciEqChar c2 'n' then
        let w := (rest2.takeWhile isWordChar).length
        if w = 0 then none
        else
          let rest3 := rest2.drop w
          let s := (rest3.takeWhile isWs).length
          match rest3.drop s with
          | e :: _ => if e = '=' then some (2 + w + s + 1) else none
          | [] => none
      else none
    | _ => none
  else none

/-- `EMAIL_PATTERN` local-part class `[A-Za-z0-9._%+-]`. -/
def localClass (c : Char) : Bool :=
  isAsciiLetter c || isDigitChar c || c = '.' || c = '_' || c = '%' || c = '+' || c = '-'

/-- `EMAIL_PATTERN` domain class `[A-Za-z0-9.-]`. -/
def domainClass (c : Char) : Bool :=
  isAsciiLetter c || isDigitChar c || c = '.' || c = '-'

/-- `[A-Z|a-z]`: the source class literally includes the bar. -/
def tldClass (c : Char) : Bool := isAsciiLetter c || c = '|'

/-- The word boundary between a last matched character and the
following character, if any. -/
def boundaryAfter (last : Char) (next : Option Char) : Bool :=
  match next with
  | none => isWordChar last
  | some c => isWordChar last != isWordChar c

/-- Greedy `{2,}` over the TLD run `R` of `l`, backtracking from the
longest candidate down to 2 until the trailing word boundary holds. -/
def tldTry (R l : List Char) : Nat → Option Nat
  | 0 => none
  | k + 1 =>
    if k + 1 < 2 then none
    else if boundaryAfter (R.getD k ' ') ((l.drop (k + 1)).head?) then some (k + 1)
    else tldTry R l k

def tldPart (l : List Char) : Option Nat :=
  let R := l.takeWhile tldClass
  tldTry R l R.length

/-- Greedy domain-part candidates descending; the character after the
candidate must be the literal dot, then the TLD part must close. -/
def domainTry (l : List Char) : Nat → Option Nat
  | 0 => none
  | kd + 1 =>
    match
      (if l.getD (kd + 1) ' ' = '.' then
        (tldPart (l.drop (kd + 2))).map (fun kt => kd + 2 + kt)
      else none)
    with
    | some r => some r
    | none => domainTry l kd

/-- `EMAIL_PATTERN = \b[A-Za-z0-9._%+-]+@[A-Za-z0-9.-]+\.[A-Z|a-z]{2,}\b`. -/
def emailCore (prevW : Bool) (c : Char) (cs : List Char) : Option Nat :=
  if prevW != isWordChar c then
    if localClass c then
      let m := (cs.takeWhile localClass).length
      match cs.drop m with
      | a :: rest =>
        if a = '@' then
          let nd := (rest.takeWhile domainClass).length
          (domainTry rest nd).map (fun k => m + 1 + k)
        else none
      | [] => none
    else none
  else none

/-- Optional separator `[-.\s]?`, greedily taken when present (a later
failure is never repaired by dropping it: the following digit
requirement fails on the separator itself). -/
def phoneSep (l : List Char) : Nat :=
  match l with
  | x :: _ => if x = '-' || x = '.' || isWs x then 1 else 0
  | [] => 0

def takeNDigits : Nat → List Char → Bool
  | 0, _ => true
  | _ + 1, [] => false
  | n + 1, c :: cs => isDigitChar c && takeNDigits n cs

/-- `\(?[0-9]{3}\)?[-.\s]?[0-9]{3}[-.\s]?[0-9]{4}`, the mandatory part
of `PHONE_PATTERN`; returns total characters consumed. -/
def phoneMain (l : List Char) : Option Nat :=
  let p1 := if l.head? = some '(' then 1 else 0
  let l1 := l.drop p1
  if takeNDigits 3 l1 then
    let l2 := l1.drop 3
    let q1 := if l2.head? = some ')' then 1 else 0
    let l3 := l2.drop q1
    let s1 := phoneSep l3
    let l4 := l3.drop s1
    if takeNDigits 3 l4 then
      let l5 := l4.drop 3
      let s2 := phoneSep l5
      let l6 := l5.drop s2
      if takeNDigits 4 l6 then some (p1 + 3 + q1 + s1 + 3 + s2 + 4) else none
    else none
  else none

/-- The optional `(\+?1[-.\s]?)` country prefix of `PHONE_PATTERN`. -/
def phoneCountry (l : List Char) : Option Nat :=
  let pl := if l.head? = some '+' then 1 else 0
  match (l.drop pl).head? with
  | some c => if c = '1' then some (pl + 1 + phoneSep (l.drop (pl + 1))) else none
  | none => none

/-- `PHONE_PATTERN` (no word boundaries): the country group is taken
greedily; if the mandatory part then fails, the engine retries without
the group. -/
def phoneCore (_ : Bool) (c : Char) (cs : List Char) : Option Nat :=
  let l := c :: cs
  let withCountry :=
    match phoneCountry l with
    | some g => (phoneMain (l.drop g)).map (fun k => g + k)
    | none => none
  match (match withCountry with | some r => some r | none => phoneMain l) with
  | some k => some (k - 1)
  | none => none

/-- `SSN_PATTERN = \b\d{3}-\d{2}-\d{4}\b`: a fixed 11-character shape
between word boundaries. -/
def ssnCore (prevW : Bool) (c : Char) (cs : List Char) : Option Nat :=
  if prevW then none
  else if isDigitChar c then
    match cs with
    | d2 :: d3 :: h1 :: e1 :: e2 :: h2 :: f1 :: f2 :: f3 :: f4 :: rest =>
      if isDigitChar d2 && isDigitChar d3 && (h1 == '-') && isDigitChar e1 &&
          isDigitChar e2 && (h2 == '-') && isDigitChar f1 && isDigitChar f2 &&
          isDigitChar f3 && isDigitChar f4 &&
          (match rest.head? with | some x => !isWordChar x | none => true) then
        some 10
      else none
    | _ => none
  else none

/-- `[-\s]?`, the credit-card separator. -/
def cardSep (l : List Char) : Nat :=
  match l with
  | x :: _ => if x = '-' || isWs x then 1 else 0
  | [] => 0

/-- `CREDIT_CARD_PATTERN = \b(?:\d{4}[-\s]?){3}\d{4}\b`. -/
def cardCore (prevW : Bool) (c : Char) (cs : List Char) : Option Nat :=
  if prevW then none
  else
    let l := c :: cs
    if takeNDigits 4 l then
      let l1 := l.drop 4
      let s1 := cardSep l1
      let l2 := l1.drop s1
      if takeNDigits 4 l2 then
        let l3 := l2.drop 4
        let s2 := cardSep l3
        let l4 := l3.drop s2
        if takeNDigits 4 l4 then
          let l5 := l4.drop 4
          let s3 := cardSep l5
          let l6 := l5.drop s3
          if takeNDigits 4 l6 then
            match (l6.drop 4).head? with
            | some x => if isWordChar x then none else some (15 + s1 + s2 + s3)
            | none => some (15 + s1 + s2 + s3)
          else none
        else none
      else none
    else none

def tryUser := fixedRep (String.toList "[User Mention]") userCore
def tryChan := fixedRep (String.toList "[Channel Mention]") chanCore
def tryRole := fixedRep (String.toList "[Role Mention]") roleCore
def tryEmoji := fixedRep (String.toList "[Emoji]") emojiCore
def tryTimestamp := fixedRep (String.toList "[Timestamp]") tsCore
def tryScript := fixedRep (String.toList "[Removed Script]") scriptCore
def tryJs := fixedRep (String.toList "javascript-removed:") jsCore
def tryOnEvent := fixedRep (String.toList " data-removed-event=") onEventCore
def tryEmail := fixedRep (String.toList "[Email Redacted]") emailCore
def tryPhone := fixedRep (String.toList "[Phone Redacted]") phoneCore
def trySsn := fixedRep (String.toList "[SSN Redacted]") ssnCore
def tryCard := fixedRep (String.toList "[Card Number Redacted]") cardCore

/-- `sanitizeContent` (part_004): the twelve replacement passes in
source order, projected to the `sanitizedContent` field (the returned
mention logs and flags do not affect it).  Each pass starts with the
previous-is-word bit false, as at a string start. -/
def sanitizeContent (l : List Char) : List Char :=
  scanB tryCard false (scanB trySsn false (scanB tryPhone false (scanB tryEmail false
    (scanB tryOnEvent false (scanB tryJs false (scanB tryScript false
      (scanB tryTimestamp false (scanB tryEmoji false (scanB tryRole false
        (scanB tryChan false (scanB tryUser false l)))))))))))

/-- Lazy `(.*?)` (dot excludes newline) up to the earliest doubled
`stop` character: returns the captured content and the characters
consumed including the two-character close. -/
def pairSplit (stop : Char) : List Char → Option (List Char × Nat)
  | [] => none
  | c :: cs =>
    if c = '\n' then none
    else if c = stop then
      match cs with
      | c2 :: _ =>
        if c2 = stop then some ([], 2)
        else (pairSplit stop cs).map (fun p => (c :: p.1, p.2 + 1))
      | [] => none
    else (pairSplit stop cs).map (fun p => (c :: p.1, p.2 + 1))

/-- Lazy `(.*?)` up to the earliest single `stop` character. -/
def charSplit (stop : Char) : List Char → Option (List Char × Nat)
  | [] => none
  | c :: cs =>
    if c = '\n' then none
    else if c = stop then some ([], 1)
    else (charSplit stop cs).map (fun p => (c :: p.1, p.2 + 1))

/-- Lazy `([\s\S]*?)` (any character) up to the earliest triple backtick. -/
def tripleSplit : List Char → Option (List Char × Nat)
  | [] => none
  | c :: cs =>
    if c = '`' then
      match cs with
      | c2 :: c3 :: _ =>
        if c2 = '`' && c3 = '`' then some ([], 3)
        else (tripleSplit cs).map (fun p => (c :: p.1, p.2 + 1))
      | _ => (tripleSplit cs).map (fun p => (c :: p.1, p.2 + 1))
    else (tripleSplit cs).map (fun p => (c :: p.1, p.2 + 1))

/-- `\*\*(.*?)\*\*` replaced by `<strong>$1<\x2fstrong>`. -/
def tryBold (_ : Bool) (c : Char) (cs : List Char) : Option (List Char × Nat) :=
  if c = '*' then
    match cs with
    | c2 :: rest =>
      if c2 = '*' then
        (pairSplit '*' rest).map (fun p =>
          (String.toList "<strong>" ++ p.1 ++ String.toList "</strong>", 1 + p.2))
      else none
    | [] => none
  else none

/-- `\*(.*?)\*` replaced by `<em>$1<\x2fem>`. -/
def tryItalic (_ : Bool) (c : Char) (cs : List Char) : Option (List Char × Nat) :=
  if c = '*' then
    (charSplit '*' cs).map (fun p =>
      (String.toList "<em>" ++ p.1 ++ String.toList "</em>", p.2))
  else none

/-- `~~(.*?)~~` replaced by `<del>$1<\x2fdel>`. -/
def tryStrike (_ : Bool) (c : Char) (cs : List Char) : Option (List Char × Nat) :=
  if c = '~' then
    match cs with
    | c2 :: rest =>
      if c2 = '~' then
        (pairSplit '~' rest).map (fun p =>
          (String.toList "<del>" ++ p.1 ++ String.toList "</del>", 1 + p.2))
      else none
    | [] => none
  else none

/-- Inline code: single backticks, replaced by `<code>$1<\x2fcode>`. -/
def tryCode (_ : Bool) (c : Char) (cs : List Char) : Option (List Char × Nat) :=
  if c = '`' then
    (charSplit '`' cs).map (fun p =>
      (String.toList "<code>" ++ p.1 ++ String.toList "</code>", p.2))
  else none

/-- Code blocks: triple backticks, replaced by `<pre><code>$1...`. -/
def tryCodeblock (_ : Bool) (c : Char) (cs : List Char) : Option (List Char × Nat) :=
  if c = '`' then
    match cs with
    | c2 :: c3 :: rest =>
      if c2 = '`' && c3 = '`' then
        (tripleSplit rest).map (fun p =>
          (String.toList "<pre><code>" ++ p.1 ++ String.toList "</code></pre>", 2 + p.2))
      else none
    | _ => none
  else none

/-- `\n` replaced by `<br>`. -/
def tryNewline (_ : Bool) (c : Char) (_ : List Char) : Option (List Char × Nat) :=
  if c = '\n' then some (String.toList "<br>", 0) else none

/-- `(https?:\/\/[^\s]+)` wrapped in an anchor; the matched URL is
substituted for both `$1` occurrences. -/
def tryUrl (_ : Bool) (c : Char) (cs : List Char) : Option (List Char × Nat) :=
  let l := c :: cs
  let pforms :=
    if litAt (String.toList "https://") l then some 8
    else if litAt (String.toList "http://") l then some 7
    else none
  match pforms with
  | some p =>
    let run := ((l.drop p).takeWhile (fun x => !isWs x)).length
    if run = 0 then none
    else
      let url := l.take (p + run)
      some (String.toList "<a href=\"" ++ url ++
        String.toList "\" target=\"_blank\" rel=\"noopener noreferrer\">" ++ url ++
        String.toList "</a>", p + run - 1)
  | none => none

/-- `convertToHtml` (part_004): the seven markdown passes in source
order: bold, italic, strikethrough, inline code, code blocks,
newlines, URLs. -/
def convertToHtml (l : List Char) : List Char :=
  scanB tryUrl false (scanB tryNewline false (scanB tryCodeblock false
    (scanB tryCode false (scanB tryStrike false (scanB tryItalic false
      (scanB tryBold false l))))))

/-- The full pipeline applied to message content at part_005 lines
255-256: `convertToHtml(sanitizeContent(content).sanitizedContent)`. -/
def sanitizeHtml (l : List Char) : List Char := convertToHtml (sanitizeContent l)

/-! ### Pattern matchers for the non-escape and idempotence properties

`snowGt` through `matchJs` are Boolean recognisers for a match of the
source regexes at the head of a string; `containsMatch m` tests every
suffix, i.e. a match anywhere.  `matchUserAny` transcribes the claimed
pattern `<@!?\d+>` with an unbounded digit run, in contrast to the
source's 17 to 19 digit bound. -/
def snowGt : Nat → List Char → Bool
  | _, [] => false
  | k, c :: cs =>
    if c = '>' then decide (17 ≤ k ∧ k ≤ 19)
    else if isDigitChar c then (if k < 19 then snowGt (k + 1) cs else false)
    else false

def userTail : List Char → Bool
  | [] => false
  | c2 :: rest2 => if c2 = '!' then snowGt 0 rest2 else snowGt 0 (c2 :: rest2)

def matchUser : List Char → Bool
  | [] => false
  | c :: cs =>
    c == '<' &&
      (match cs with
       | c1 :: rest1 => c1 == '@' && userTail rest1
       | [] => false)

def matchChan : List Char → Bool
  | [] => false
  | c :: cs =>
    c == '<' &&
      (match cs with
       | c1 :: rest1 => c1 == '#' && snowGt 0 rest1
       | [] => false)

def matchRole : List Char → Bool
  | [] => false
  | c :: cs =>
    c == '<' &&
      (match cs with
       | c1 :: rest1 =>
         c1 == '@' &&
           (match rest1 with
            | c2 :: rest2 => c2 == '&' && snowGt 0 rest2
            | [] => false)
       | [] => false)

def matchJs (l : List Char) : Bool := ciLit (String.toList "javascript:") l

def containsMatch (m : List Char → Bool) : List Char → Bool
  | [] => false
  | c :: cs => m (c :: cs) || containsMatch m cs

def digitsThenGt : List Char → Bool
  | [] => false
  | c :: cs => if c = '>' then true else isDigitChar c && digitsThenGt cs

def digitsGt : List Char → Bool
  | [] => false
  | c :: cs => isDigitChar c && digitsThenGt cs

def userTailAny : List Char → Bool
  | [] => false
  | c2 :: rest2 => if c2 = '!' then digitsGt rest2 else digitsGt (c2 :: rest2)

def matchUserAny : List Char → Bool
  | [] => false
  | c :: cs =>
    c == '<' &&
      (match cs with
       | c1 :: rest1 => c1 == '@' && userTailAny rest1
       | [] => false)

def safeHead (x : Char) : Bool := x == '[' || x == ' ' || x == 'j'

def mentionSafeRep (r : List Char) : Bool :=
  match r with
  | h :: _ => safeHead h && r.all (fun x => x != '<')
  | [] => false

def jsSafeRep (r : List Char) : Bool :=
  match r with
  | h :: _ => safeHead h && r.all (fun x => !ciEqChar 'j' x)
  | [] => false

theorem safeHead_cases (x : Char) (hx : safeHead x = true) :
    x = '[' ∨ x = ' ' ∨ x = 'j' := by
  simp [safeHead] at hx
  tauto

theorem safeHead_facts (x : Char) (hx : safeHead x = true) :
    x ≠ '<' ∧ x ≠ '@' ∧ x ≠ '#' ∧ x ≠ '&' ∧ x ≠ '!' ∧ x ≠ '>' ∧
      isDigitChar x = false ∧ ∀ q ∈ String.toList "avascript:", ciEqChar q x = false := by
  rcases safeHead_cases x hx with rfl | rfl | rfl <;> decide

theorem scanB_nil (tr : Bool → Char → List Char → Option (List Char × Nat)) (p : Bool) :
    scanB tr p [] = [] := by simp [scanB, scanGB]

theorem scanB_cons_none (tr : Bool → Char → List Char → Option (List Char × Nat))
    (p : Bool) (c : Char) (cs : List Char) (h : tr p c cs = none) :
    scanB tr p (c :: cs) = c :: scanB tr (isWordChar c) cs := by
  simp [scanB, scanGB, h]

theorem scanGB_congr (tr : Bool → Char → List Char → Option (List Char × Nat)) :
    ∀ f1 f2 (p : Bool) (l : List Char), l.length ≤ f1 → l.length ≤ f2 →
      scanGB tr f1 p l = scanGB tr f2 p l := by
  intro f1
  induction f1 with
  | zero =>
    intro f2 p l h1 _
    have : l = [] := List.length_eq_zero.mp (Nat.le_zero.mp h1)
    subst this
    cases f2 <;> rfl
  | succ f1 ih =>
    intro f2 p l h1 h2
    cases l with
    | nil => cases f2 <;> rfl
    | cons c cs =>
      cases f2 with
      | zero => simp at h2
      | succ f2 =>
        have hcs1 : cs.length ≤ f1 := by simpa using h1
        have hcs2 : cs.length ≤ f2 := by simpa using h2
        show (match tr p c cs with
          | some (rep, k) =>
            rep ++ scanGB tr f1 (isWordChar ((cs.take k).getLastD c)) (cs.drop k)
          | none => c :: scanGB tr f1 (isWordChar c) cs) =
          (match tr p c cs with
          | some (rep, k) =>
            rep ++ scanGB tr f2 (isWordChar ((cs.take k).getLastD c)) (cs.drop k)
          | none => c :: scanGB tr f2 (isWordChar c) cs)
        cases htr : tr p c cs with
        | none =>
          dsimp only
          rw [ih f2 (isWordChar c) cs hcs1 hcs2]
        | some out =>
          obtain ⟨rep, k⟩ := out
          dsimp only
          rw [ih f2 (isWordChar ((cs.take k).getLastD c)) (cs.drop k)
            (le_trans (by rw [List.length_drop]; omega) hcs1)
            (le_trans (by rw [List.length_drop]; omega) hcs2)]

theorem scanB_cons_some (tr : Bool → Char → List Char → Option (List Char × Nat))
    (p : Bool) (c : Char) (cs rep0 : List Char) (k : Nat)
    (h : tr p c cs = some (rep0, k)) :
    scanB tr p (c :: cs) =
      rep0 ++ scanB tr (isWordChar ((cs.take k).getLastD c)) (cs.drop k) := by
  have h1 : scanB tr p (c :: cs) =
      rep0 ++ scanGB tr cs.length (isWordChar ((cs.take k).getLastD c)) (cs.drop k) := by
    simp [scanB, scanGB, h]
  rw [h1, scanGB_congr tr cs.length (cs.drop k).length (isWordChar ((cs.take k).getLastD c))
    (cs.drop k) (by rw [List.length_drop]; omega) le_rfl]
  rfl

theorem fixedRep_some (rep0 : List Char) (core : Bool → Char → List Char → Option Nat)
    (p : Bool) (c : Char) (cs : List Char) (out : List Char × Nat)
    (h : fixedRep rep0 core p c cs = some out) : out.1 = rep0 := by
  unfold fixedRep at h
  cases hc : core p c cs with
  | none => rw [hc] at h; cases h
  | some k => rw [hc] at h; cases h; rfl

theorem scanB_cons_inv (tr : Bool → Char → List Char → Option (List Char × Nat))
    (rep0 : List Char) (h0 : Char) (t2 : List Char)
    (hfix : ∀ p c cs out, tr p c cs = some out → out.1 = rep0)
    (hrep : rep0 = h0 :: t2) :
    ∀ (l : List Char) (p : Bool) (y : Char) (X : List Char),
      scanB tr p l = y :: X → y ≠ h0 →
      ∃ l2, l = y :: l2 ∧ X = scanB tr (isWordChar y) l2 ∧ tr p y l2 = none := by
  intro l p y X hscan hy
  cases l with
  | nil => rw [scanB_nil] at hscan; cases hscan
  | cons c cs =>
    cases htr : tr p c cs with
    | none =>
      rw [scanB_cons_none tr p c cs htr] at hscan
      obtain ⟨hc, hX⟩ := List.cons.inj hscan
      subst hc
      exact ⟨cs, rfl, hX.symm, htr⟩
    | some out =>
      obtain ⟨r, k⟩ := out
      have hr : r = rep0 := hfix p c cs (r, k) htr
      subst hr
      rw [scanB_cons_some tr p c cs _ k htr, hrep] at hscan
      simp only [List.cons_append] at hscan
      exact absurd (List.cons.inj hscan).1.symm hy

theorem containsMatch_cons (m : List Char → Bool) (c : Char) (cs : List Char) :
    containsMatch m (c :: cs) = (m (c :: cs) || containsMatch m cs) := rfl

theorem containsMatch_tail (m : List Char → Bool) (c : Char) (cs : List Char)
    (h : containsMatch m (c :: cs) = false) : containsMatch m cs = false := by
  rw [containsMatch_cons] at h
  exact (Bool.or_eq_false_iff.mp h).2

theorem containsMatch_drop (m : List Char → Bool) (k : Nat) :
    ∀ l, containsMatch m l = false → containsMatch m (l.drop k) = false := by
  induction k with
  | zero => intro l h; simpa using h
  | succ k ih =>
    intro l h
    cases l with
    | nil => simpa using h
    | cons c cs => exact ih cs (containsMatch_tail m c cs h)

theorem containsMatch_append_ok (m : List Char → Bool) (ok : Char → Bool)
    (hm : ∀ x cs, ok x = true → m (x :: cs) = false) :
    ∀ (r : List Char), (∀ x ∈ r, ok x = true) → ∀ t,
      containsMatch m (r ++ t) = containsMatch m t := by
  intro r
  induction r with
  | nil => intro _ t; rfl
  | cons x rest ih =>
    intro hall t
    rw [List.cons_append, containsMatch_cons,
      hm x (rest ++ t) (hall x (List.mem_cons_self x rest)),
      ih (fun z hz => hall z (List.mem_cons_of_mem x hz)) t]
    rfl

theorem ciLit_append (pat : List Char) :
    ∀ (x t : List Char), pat.length ≤ x.length → ciLit pat (x ++ t) = ciLit pat x := by
  induction pat with
  | nil => intro x t _; rfl
  | cons q qs ih =>
    intro x t hl
    cases x with
    | nil => simp at hl
    | cons c cs =>
      simp only [List.cons_append]
      show (ciEqChar q c && ciLit qs (cs ++ t)) = (ciEqChar q c && ciLit qs cs)
      rw [ih cs t (by simpa using hl)]

def plainChar (c : Char) : Bool := ('a' ≤ c && c ≤ 'z') || c = ' '

def allPlain (l : List Char) : Bool := l.all plainChar

theorem plain_ne (c d : Char) (hc : plainChar c = true) (hd : plainChar d = false) :
    c ≠ d := by
  intro h
  rw [h, hd] at hc
  cases hc

theorem plain_lower (c : Char) (hc : plainChar c = true) : lowerChar c = c := by
  unfold lowerChar
  rw [if_neg]
  intro hAZ
  simp only [plainChar, Bool.or_eq_true, Bool.and_eq_true, decide_eq_true_eq] at hc
  rcases hc with ⟨h1, _⟩ | rfl
  · exact absurd (le_trans h1 hAZ.2) (by decide)
  · exact absurd hAZ.1 (by decide)

theorem plain_not_digit (c : Char) (hc : plainChar c = true) : isDigitChar c = false := by
  simp only [plainChar, Bool.or_eq_true, Bool.and_eq_true, decide_eq_true_eq] at hc
  rcases hc with ⟨h1, _⟩ | rfl
  · simp only [isDigitChar, Bool.and_eq_false_iff]
    right
    simp only [decide_eq_false_iff_not]
    intro h9
    exact absurd (le_trans h1 h9) (by decide)
  · decide

theorem ciEqChar_colon_plain (c : Char) (hc : plainChar c = true) :
    ciEqChar ':' c = false := by
  unfold ciEqChar
  rw [plain_lower c hc]
  rw [show lowerChar ':' = ':' from by decide]
  simp only [beq_eq_false_iff_ne, ne_eq]
  exact fun h => plain_ne c ':' hc (by decide) h.symm

theorem ciLit_plain_colon (pat : List Char) (hpat : ':' ∈ pat) :
    ∀ l, allPlain l = true → ciLit pat l = false := by
  induction pat with
  | nil => cases hpat
  | cons q qs ih =>
    intro l hl
    cases l with
    | nil => rfl
    | cons c cs =>
      show (ciEqChar q c && ciLit qs cs) = false
      have hc : plainChar c = true := by
        simp only [allPlain, List.all_cons, Bool.and_eq_true] at hl
        exact hl.1
      have hcs : allPlain cs = true := by
        simp only [allPlain, List.all_cons, Bool.and_eq_true] at hl
        exact hl.2
      rcases List.mem_cons.mp hpat with rfl | hqs
      · rw [ciEqChar_colon_plain c hc]
        rfl
      · rw [ih hqs cs hcs, Bool.and_false]

theorem litAt_plain_colon (pat : List Char) (hpat : ':' ∈ pat) :
    ∀ l, allPlain l = true → litAt pat l = false := by
  induction pat with
  | nil => cases hpat
  | cons q qs ih =>
    intro l hl
    cases l with
    | nil => rfl
    | cons c cs =>
      have hc : plainChar c = true := by
        simp only [allPlain, List.all_cons, Bool.and_eq_true] at hl
        exact hl.1
      have hcs : allPlain cs = true := by
        simp only [allPlain, List.all_cons, Bool.and_eq_true] at hl
        exact hl.2
      show ((q == c) && litAt qs cs) = false
      rcases List.mem_cons.mp hpat with rfl | hqs
      · have : ':' ≠ c := fun h => plain_ne c ':' hc (by decide) h.symm
        simp [this]
      · rw [ih hqs cs hcs, Bool.and_false]

theorem scanB_id (tr : Bool → Char → List Char → Option (List Char × Nat))
    (hnone : ∀ p c cs, plainChar c = true → allPlain cs = true → tr p c cs = none) :
    ∀ l, allPlain l = true → ∀ p, scanB tr p l = l := by
  intro l
  induction l with
  | nil => intro _ p; exact scanB_nil tr p
  | cons c cs ih =>
    intro hall p
    have hc : plainChar c = true := by
      simp only [allPlain, List.all_cons, Bool.and_eq_true] at hall
      exact hall.1
    have hcs : allPlain cs = true := by
      simp only [allPlain, List.all_cons, Bool.and_eq_true] at hall
      exact hall.2
    rw [scanB_cons_none tr p c cs (hnone p c cs hc hcs), ih hcs (isWordChar c)]

theorem allPlain_cons (c : Char) (cs : List Char) (hc : plainChar c = true)
    (hcs : allPlain cs = true) : allPlain (c :: cs) = true := by
  show (plainChar c && allPlain cs) = true
  rw [hc, hcs]
  rfl

theorem plain_of_mem (l : List Char) (hl : allPlain l = true) (x : Char) (hx : x ∈ l) :
    plainChar x = true := by
  simp only [allPlain, List.all_eq_true] at hl
  exact hl x hx

theorem fixedRep_none (rep0 : List Char) (core : Bool → Char → List Char → Option Nat)
    (p : Bool) (c : Char) (cs : List Char) (h : core p c cs = none) :
    fixedRep rep0 core p c cs = none := by
  unfold fixedRep
  rw [h]
  rfl

theorem userCore_plain (p : Bool) (c : Char) (cs : List Char) (hc : plainChar c = true)
    (_ : allPlain cs = true) : userCore p c cs = none := by
  unfold userCore
  rw [if_neg (plain_ne c '<' hc (by decide))]

theorem chanCore_plain (p : Bool) (c : Char) (cs : List Char) (hc : plainChar c = true)
    (_ : allPlain cs = true) : chanCore p c cs = none := by
  unfold chanCore
  rw [if_neg (plain_ne c '<' hc (by decide))]

theorem roleCore_plain (p : Bool) (c : Char) (cs : List Char) (hc : plainChar c = true)
    (_ : allPlain cs = true) : roleCore p c cs = none := by
  unfold roleCore
  rw [if_neg (plain_ne c '<' hc (by decide))]

theorem emojiCore_plain (p : Bool) (c : Char) (cs : List Char) (hc : plainChar c = true)
    (_ : allPlain cs = true) : emojiCore p c cs = none := by
  unfold emojiCore
  rw [if_neg (plain_ne c '<' hc (by decide))]

theorem tsCore_plain (p : Bool) (c : Char) (cs : List Char) (hc : plainChar c = true)
    (_ : allPlain cs = true) : tsCore p c cs = none := by
  unfold tsCore
  rw [if_neg (plain_ne c '<' hc (by decide))]

theorem scriptCore_plain (p : Bool) (c : Char) (cs : List Char) (hc : plainChar c = true)
    (_ : allPlain cs = true) : scriptCore p c cs = none := by
  unfold scriptCore
  rw [if_neg (plain_ne c '<' hc (by decide))]

theorem jsCore_plain (p : Bool) (c : Char) (cs : List Char) (hc : plainChar c = true)
    (hcs : allPlain cs = true) : jsCore p c cs = none := by
  unfold jsCore
  rw [ciLit_plain_colon (String.toList "javascript:") (by decide) (c :: cs)
    (allPlain_cons c cs hc hcs)]
  rfl

theorem onEventCore_plain (p : Bool) (c : Char) (cs : List Char) (_ : plainChar c = true)
    (hcs : allPlain cs = true) : onEventCore p c cs = none := by
  unfold onEventCore
  by_cases hws : isWs c = true
  · rw [if_pos hws]
    rcases cs with _ | ⟨c1, _ | ⟨c2, rest2⟩⟩
    · rfl
    · rfl
    · dsimp only
      by_cases hon : (ciEqChar c1 'o' && ciEqChar c2 'n') = true
      · rw [if_pos hon]
        by_cases hw : (rest2.takeWhile isWordChar).length = 0
        · rw [if_pos hw]
        · rw [if_neg hw]
          rcases hsplit :
              (rest2.drop (rest2.takeWhile isWordChar).length).drop
                (((rest2.drop (rest2.takeWhile isWordChar).length).takeWhile isWs).length)
            with _ | ⟨e, tail⟩
          · rfl
          · dsimp only
            have he : e ∈ rest2 := by
              have h1 : e ∈ (rest2.drop (rest2.takeWhile isWordChar).length).drop
                  (((rest2.drop (rest2.takeWhile isWordChar).length).takeWhile isWs).length) := by
                rw [hsplit]
                exact List.mem_cons_self e tail
              exact List.mem_of_mem_drop (List.mem_of_mem_drop h1)
            have hrest2 : allPlain rest2 = true := by
              simp only [allPlain, List.all_cons, Bool.and_eq_true] at hcs
              exact hcs.2.2
            rw [if_neg (plain_ne e '=' (plain_of_mem rest2 hrest2 e he) (by decide))]
      · rw [if_neg hon]
  · rw [if_neg hws]

theorem emailCore_plain (p : Bool) (c : Char) (cs : List Char) (_ : plainChar c = true)
    (hcs : allPlain cs = true) : emailCore p c cs = none := by
  unfold emailCore
  by_cases hb : (p != isWordChar c) = true
  · rw [if_pos hb]
    by_cases hlc : localClass c = true
    · rw [if_pos hlc]
      dsimp only
      rcases hsplit : cs.drop (cs.takeWhile localClass).length with _ | ⟨a, rest⟩
      · rfl
      · dsimp only
        have ha : a ∈ cs := by
          have h1 : a ∈ cs.drop (cs.takeWhile localClass).length := by
            rw [hsplit]
            exact List.mem_cons_self a rest
          exact List.mem_of_mem_drop h1
        rw [if_neg (plain_ne a '@' (plain_of_mem cs hcs a ha) (by decide))]
    · rw [if_neg hlc]
  · rw [if_neg hb]

theorem takeNDigits_cons_false (n : Nat) (c : Char) (cs : List Char)
    (h : isDigitChar c = false) : takeNDigits (n + 1) (c :: cs) = false := by
  show (isDigitChar c && takeNDigits n cs) = false
  rw [h, Bool.false_and]

theorem phoneCountry_plain (c : Char) (cs : List Char) (hc : plainChar c = true)
    (_ : allPlain cs = true) : phoneCountry (c :: cs) = none := by
  unfold phoneCountry
  have h1 : ¬((c :: cs).head? = some '+') := by
    simp only [List.head?_cons]
    exact fun h => plain_ne c '+' hc (by decide) (Option.some.inj h)
  rw [if_neg h1]
  simp only [List.drop_zero, List.head?_cons]
  rw [if_neg (plain_ne c '1' hc (by decide))]

theorem phoneMain_plain (c : Char) (cs : List Char) (hc : plainChar c = true)
    (_ : allPlain cs = true) : phoneMain (c :: cs) = none := by
  unfold phoneMain
  have h1 : ¬((c :: cs).head? = some '(') := by
    simp only [List.head?_cons]
    exact fun h => plain_ne c '(' hc (by decide) (Option.some.inj h)
  rw [if_neg h1]
  simp only [List.drop_zero]
  rw [takeNDigits_cons_false 2 c cs (plain_not_digit c hc)]
  rfl

theorem phoneCore_plain (p : Bool) (c : Char) (cs : List Char) (hc : plainChar c = true)
    (hcs : allPlain cs = true) : phoneCore p c cs = none := by
  unfold phoneCore
  dsimp only
  rw [phoneCountry_plain c cs hc hcs, phoneMain_plain c cs hc hcs]

theorem ssnCore_plain (p : Bool) (c : Char) (cs : List Char) (hc : plainChar c = true)
    (_ : allPlain cs = true) : ssnCore p c cs = none := by
  unfold ssnCore
  by_cases hp : p = true
  · rw [if_pos hp]
  · rw [if_neg hp, if_neg]
    simp [plain_not_digit c hc]

theorem cardCore_plain (p : Bool) (c : Char) (cs : List Char) (hc : plainChar c = true)
    (_ : allPlain cs = true) : cardCore p c cs = none := by
  unfold cardCore
  by_cases hp : p = true
  · rw [if_pos hp]
  · rw [if_neg hp]
    dsimp only
    rw [takeNDigits_cons_false 3 c cs (plain_not_digit c hc)]
    rfl

theorem tryBold_plain (p : Bool) (c : Char) (cs : List Char) (hc : plainChar c = true)
    (_ : allPlain cs = true) : tryBold p c cs = none := by
  unfold tryBold
  rw [if_neg (plain_ne c '*' hc (by decide))]

theorem tryItalic_plain (p : Bool) (c : Char) (cs : List Char) (hc : plainChar c = true)
    (_ : allPlain cs = true) : tryItalic p c cs = none := by
  unfold tryItalic
  rw [if_neg (plain_ne c '*' hc (by decide))]

theorem tryStrike_plain (p : Bool) (c : Char) (cs : List Char) (hc : plainChar c = true)
    (_ : allPlain cs = true) : tryStrike p c cs = none := by
  unfold tryStrike
  rw [if_neg (plain_ne c '~' hc (by decide))]

theorem tryCode_plain (p : Bool) (c : Char) (cs : List Char) (hc : plainChar c = true)
    (_ : allPlain cs = true) : tryCode p c cs = none := by
  unfold tryCode
  rw [if_neg (plain_ne c '`' hc (by decide))]

theorem tryCodeblock_plain (p : Bool) (c : Char) (cs : List Char) (hc : plainChar c = true)
    (_ : allPlain cs = true) : tryCodeblock p c cs = none := by
  unfold tryCodeblock
  rw [if_neg (plain_ne c '`' hc (by decide))]

theorem tryNewline_plain (p : Bool) (c : Char) (cs : List Char) (hc : plainChar c = true)
    (_ : allPlain cs = true) : tryNewline p c cs = none := by
  unfold tryNewline
  rw [if_neg (plain_ne c '\n' hc (by decide))]

theorem tryUrl_plain (p : Bool) (c : Char) (cs : List Char) (hc : plainChar c = true)
    (hcs : allPlain cs = true) : tryUrl p c cs = none := by
  unfold tryUrl
  dsimp only
  rw [litAt_plain_colon (String.toList "https://") (by decide) (c :: cs)
      (allPlain_cons c cs hc hcs),
    litAt_plain_colon (String.toList "http://") (by decide) (c :: cs)
      (allPlain_cons c cs hc hcs)]
  rfl

theorem sanitizeContent_plain (l : List Char) (h : allPlain l = true) :
    sanitizeContent l = l := by
  unfold sanitizeContent
  rw [scanB_id tryUser
      (fun p c cs hc hcs => fixedRep_none _ _ p c cs (userCore_plain p c cs hc hcs)) l h,
    scanB_id tryChan
      (fun p c cs hc hcs => fixedRep_none _ _ p c cs (chanCore_plain p c cs hc hcs)) l h,
    scanB_id tryRole
      (fun p c cs hc hcs => fixedRep_none _ _ p c cs (roleCore_plain p c cs hc hcs)) l h,
    scanB_id tryEmoji
      (fun p c cs hc hcs => fixedRep_none _ _ p c cs (emojiCore_plain p c cs hc hcs)) l h,
    scanB_id tryTimestamp
      (fun p c cs hc hcs => fixedRep_none _ _ p c cs (tsCore_plain p c cs hc hcs)) l h,
    scanB_id tryScript
      (fun p c cs hc hcs => fixedRep_none _ _ p c cs (scriptCore_plain p c cs hc hcs)) l h,
    scanB_id tryJs
      (fun p c cs hc hcs => fixedRep_none _ _ p c cs (jsCore_plain p c cs hc hcs)) l h,
    scanB_id tryOnEvent
      (fun p c cs hc hcs => fixedRep_none _ _ p c cs (onEventCore_plain p c cs hc hcs)) l h,
    scanB_id tryEmail
      (fun p c cs hc hcs => fixedRep_none _ _ p c cs (emailCore_plain p c cs hc hcs)) l h,
    scanB_id tryPhone
      (fun p c cs hc hcs => fixedRep_none _ _ p c cs (phoneCore_plain p c cs hc hcs)) l h,
    scanB_id trySsn
      (fun p c cs hc hcs => fixedRep_none _ _ p c cs (ssnCore_plain p c cs hc hcs)) l h,
    scanB_id tryCard
      (fun p c cs hc hcs => fixedRep_none _ _ p c cs (cardCore_plain p c cs hc hcs)) l h]

theorem convertToHtml_plain (l : List Char) (h : allPlain l = true) :
    convertToHtml l = l := by
  unfold convertToHtml
  rw [scanB_id tryBold tryBold_plain l h,
    scanB_id tryItalic tryItalic_plain l h,
    scanB_id tryStrike tryStrike_plain l h,
    scanB_id tryCode tryCode_plain l h,
    scanB_id tryCodeblock tryCodeblock_plain l h,
    scanB_id tryNewline tryNewline_plain l h,
    scanB_id tryUrl tryUrl_plain l h]

theorem sanitizeHtml_plain (l : List Char) (h : allPlain l = true) :
    sanitizeHtml l = l := by
  unfold sanitizeHtml
  rw [sanitizeContent_plain l h, convertToHtml_plain l h]

def safeHeaded (tr : Bool → Char → List Char → Option (List Char × Nat)) : Prop :=
  ∀ p c cs out, tr p c cs = some out → ∃ h0 t2, out.1 = h0 :: t2 ∧ safeHead h0 = true

theorem snowGt_scan (tr : Bool → Char → List Char → Option (List Char × Nat))
    (htr : safeHeaded tr) :
    ∀ n (l : List Char) (p : Bool) (k : Nat), l.length ≤ n →
      snowGt k (scanB tr p l) = true → snowGt k l = true := by
  intro n
  induction n with
  | zero =>
    intro l p k hl hs
    have hnil : l = [] := List.length_eq_zero.mp (Nat.le_zero.mp hl)
    subst hnil
    rw [scanB_nil] at hs
    simp [snowGt] at hs
  | succ n ih =>
    intro l p k hl hs
    cases l with
    | nil => rw [scanB_nil] at hs; simp [snowGt] at hs
    | cons c cs =>
      have hcs : cs.length ≤ n := by simpa using hl
      cases htr2 : tr p c cs with
      | none =>
        rw [scanB_cons_none tr p c cs htr2] at hs
        by_cases hgt : c = '>'
        · subst hgt
          simpa [snowGt] using hs
        · by_cases hdig : isDigitChar c = true
          · by_cases hk : k < 19
            · have hs' : snowGt (k + 1) (scanB tr (isWordChar c) cs) = true := by
                simpa [snowGt, hgt, hdig, hk] using hs
              have hres := ih cs (isWordChar c) (k + 1) hcs hs'
              simpa [snowGt, hgt, hdig, hk] using hres
            · simp [snowGt, hgt, hdig, hk] at hs
          · simp [snowGt, hgt, hdig] at hs
      | some out =>
        obtain ⟨r, kk⟩ := out
        obtain ⟨h0, t2, hrep, hsafe⟩ := htr p c cs (r, kk) htr2
        dsimp only at hrep
        subst hrep
        rw [scanB_cons_some tr p c cs _ kk htr2] at hs
        obtain ⟨-, -, -, -, -, hne_gt, hnd, -⟩ := safeHead_facts h0 hsafe
        simp [snowGt, List.cons_append, hne_gt, hnd] at hs

theorem userTail_scan (tr : Bool → Char → List Char → Option (List Char × Nat))
    (htr : safeHeaded tr) :
    ∀ (l : List Char) (p : Bool), userTail (scanB tr p l) = true → userTail l = true := by
  intro l p hs
  cases l with
  | nil => rw [scanB_nil] at hs; simp [userTail] at hs
  | cons c cs =>
    cases htr2 : tr p c cs with
    | none =>
      rw [scanB_cons_none tr p c cs htr2] at hs
      by_cases hbang : c = '!'
      · subst hbang
        have hs' : snowGt 0 (scanB tr (isWordChar '!') cs) = true := by
          simpa [userTail] using hs
        have hres := snowGt_scan tr htr cs.length cs (isWordChar '!') 0 le_rfl hs'
        simpa [userTail] using hres
      · have hs' : snowGt 0 (c :: scanB tr (isWordChar c) cs) = true := by
          simpa [userTail, hbang] using hs
        rw [← scanB_cons_none tr p c cs htr2] at hs'
        have hres := snowGt_scan tr htr (c :: cs).length (c :: cs) p 0 le_rfl hs'
        simpa [userTail, hbang] using hres
    | some out =>
      obtain ⟨r, kk⟩ := out
      obtain ⟨h0, t2, hrep, hsafe⟩ := htr p c cs (r, kk) htr2
      dsimp only at hrep
      subst hrep
      rw [scanB_cons_some tr p c cs _ kk htr2] at hs
      obtain ⟨-, -, -, -, hne_bang, hne_gt, hnd, -⟩ := safeHead_facts h0 hsafe
      simp [userTail, List.cons_append, hne_bang, snowGt, hne_gt, hnd] at hs

theorem ciLit_scan (tr : Bool → Char → List Char → Option (List Char × Nat))
    (htr : safeHeaded tr) :
    ∀ n (ps l : List Char) (p : Bool), l.length ≤ n →
      (∀ q ∈ ps, q ∈ String.toList "avascript:") →
      ciLit ps (scanB tr p l) = true → ciLit ps l = true := by
  intro n
  induction n with
  | zero =>
    intro ps l p hl _ hs
    have hnil : l = [] := List.length_eq_zero.mp (Nat.le_zero.mp hl)
    subst hnil
    rw [scanB_nil] at hs
    exact hs
  | succ n ih =>
    intro ps l p hl hq hs
    cases ps with
    | nil => rfl
    | cons q qs =>
      cases l with
      | nil => rw [scanB_nil] at hs; exact hs
      | cons c cs =>
        have hcs : cs.length ≤ n := by simpa using hl
        cases htr2 : tr p c cs with
        | none =>
          rw [scanB_cons_none tr p c cs htr2] at hs
          have hsplit : ciEqChar q c = true ∧
              ciLit qs (scanB tr (isWordChar c) cs) = true := by
            simpa [ciLit] using hs
          have h3 := ih qs cs (isWordChar c) hcs
            (fun x hx => hq x (List.mem_cons_of_mem q hx)) hsplit.2
          show (ciEqChar q c && ciLit qs cs) = true
          rw [hsplit.1, h3]
          rfl
        | some out =>
          obtain ⟨r, kk⟩ := out
          obtain ⟨h0, t2, hrep, hsafe⟩ := htr p c cs (r, kk) htr2
          dsimp only at hrep
          subst hrep
          rw [scanB_cons_some tr p c cs _ kk htr2] at hs
          have hdead := (safeHead_facts h0 hsafe).2.2.2.2.2.2.2 q (hq q (List.mem_cons_self q qs))
          rw [List.cons_append] at hs
          have hform : ciLit (q :: qs)
              (h0 :: (t2 ++ scanB tr (isWordChar ((cs.take kk).getLastD c)) (cs.drop kk))) =
              (ciEqChar q h0 &&
                ciLit qs (t2 ++ scanB tr (isWordChar ((cs.take kk).getLastD c)) (cs.drop kk))) :=
            rfl
          rw [hform, hdead, Bool.false_and] at hs
          cases hs

theorem snowCount_isSome : ∀ (l : List Char) (k : Nat),
    (snowflakeGtCount k l).isSome = snowGt k l := by
  intro l
  induction l with
  | nil => intro k; rfl
  | cons c cs ih =>
    intro k
    show (if c = '>' then (if 17 ≤ k ∧ k ≤ 19 then some 1 else none)
        else if isDigitChar c then
          (if k < 19 then (snowflakeGtCount (k + 1) cs).map (fun n => n + 1) else none)
        else none).isSome = snowGt k (c :: cs)
    by_cases hgt : c = '>'
    · by_cases hk : 17 ≤ k ∧ k ≤ 19 <;> simp [snowGt, hgt, hk]
    · by_cases hdig : isDigitChar c = true
      · by_cases hk : k < 19
        · simp [snowGt, hgt, hdig, hk, ih]
        · simp [snowGt, hgt, hdig, hk]
      · simp [snowGt, hgt, hdig]

theorem userCore_isSome (p : Bool) (c : Char) (cs : List Char) :
    (userCore p c cs).isSome = matchUser (c :: cs) := by
  unfold userCore
  by_cases hc : c = '<'
  · subst hc
    rw [if_pos rfl]
    cases cs with
    | nil => rfl
    | cons c1 rest1 =>
      dsimp only
      by_cases h1 : c1 = '@'
      · subst h1
        rw [if_pos rfl]
        cases rest1 with
        | nil => rfl
        | cons c2 rest2 =>
          dsimp only
          by_cases h2 : c2 = '!'
          · subst h2
            rw [if_pos rfl]
            simp [matchUser, userTail, snowCount_isSome]
          · rw [if_neg h2]
            simp [matchUser, userTail, h2, snowCount_isSome]
      · rw [if_neg h1]
        simp [matchUser, h1]
  · rw [if_neg hc]
    simp [matchUser, hc]

theorem chanCore_isSome (p : Bool) (c : Char) (cs : List Char) :
    (chanCore p c cs).isSome = matchChan (c :: cs) := by
  unfold chanCore
  by_cases hc : c = '<'
  · subst hc
    rw [if_pos rfl]
    cases cs with
    | nil => rfl
    | cons c1 rest1 =>
      dsimp only
      by_cases h1 : c1 = '#'
      · subst h1
        rw [if_pos rfl]
        simp [matchChan, snowCount_isSome]
      · rw [if_neg h1]
        simp [matchChan, h1]
  · rw [if_neg hc]
    simp [matchChan, hc]

theorem roleCore_isSome (p : Bool) (c : Char) (cs : List Char) :
    (roleCore p c cs).isSome = matchRole (c :: cs) := by
  unfold roleCore
  by_cases hc : c = '<'
  · subst hc
    rw [if_pos rfl]
    cases cs with
    | nil => rfl
    | cons c1 rest1 =>
      cases rest1 with
      | nil => simp [matchRole]
      | cons c2 rest2 =>
        dsimp only
        by_cases h12 : (c1 = '@' && c2 = '&') = true
        · rw [if_pos h12]
          have h1 : c1 = '@' := by simpa using (Bool.and_eq_true _ _ |>.mp h12).1
          have h2 : c2 = '&' := by simpa using (Bool.and_eq_true _ _ |>.mp h12).2
          subst h1
          subst h2
          simp [matchRole, snowCount_isSome]
        · rw [if_neg h12]
          have horne : ¬(c1 = '@') ∨ ¬(c2 = '&') := by
            by_contra hcon
            push_neg at hcon
            exact h12 (by simp [hcon.1, hcon.2])
          rcases horne with h | h <;> simp [matchRole, h]
  · rw [if_neg hc]
    simp [matchRole, hc]

theorem jsCore_isSome (p : Bool) (c : Char) (cs : List Char) :
    (jsCore p c cs).isSome = matchJs (c :: cs) := by
  unfold jsCore matchJs
  by_cases h : ciLit (String.toList "javascript:") (c :: cs) = true
  · rw [if_pos h, h]
    rfl
  · rw [if_neg h]
    simp only [Option.isSome_none]
    exact (Bool.eq_false_iff.mpr (fun hh => h hh)).symm

theorem matchUser_head_false (x : Char) (cs : List Char) (hx : (x != '<') = true) :
    matchUser (x :: cs) = false := by
  show ((x == '<') && _) = false
  rw [show (x == '<') = false from by simpa using hx, Bool.false_and]

theorem matchChan_head_false (x : Char) (cs : List Char) (hx : (x != '<') = true) :
    matchChan (x :: cs) = false := by
  show ((x == '<') && _) = false
  rw [show (x == '<') = false from by simpa using hx, Bool.false_and]

theorem matchRole_head_false (x : Char) (cs : List Char) (hx : (x != '<') = true) :
    matchRole (x :: cs) = false := by
  show ((x == '<') && _) = false
  rw [show (x == '<') = false from by simpa using hx, Bool.false_and]

theorem matchJs_head_false (x : Char) (cs : List Char) (hx : (!ciEqChar 'j' x) = true) :
    matchJs (x :: cs) = false := by
  unfold matchJs
  rw [show String.toList "javascript:" = 'j' :: String.toList "avascript:" from by decide]
  show (ciEqChar 'j' x && _) = false
  rw [show ciEqChar 'j' x = false from by simpa using hx, Bool.false_and]

theorem containsJs_seam_own (t : List Char) :
    containsMatch matchJs (String.toList "javascript-removed:" ++ t) =
      containsMatch matchJs t := by
  rw [show String.toList "javascript-removed:" =
      'j' :: String.toList "avascript-removed:" from by decide]
  rw [List.cons_append, containsMatch_cons]
  have h1 : matchJs ('j' :: (String.toList "avascript-removed:" ++ t)) = false := by
    rw [← List.cons_append]
    unfold matchJs
    rw [ciLit_append (String.toList "javascript:")
      ('j' :: String.toList "avascript-removed:") t (by decide)]
    decide
  rw [h1, Bool.false_or]
  exact containsMatch_append_ok matchJs (fun x => !ciEqChar 'j' x) matchJs_head_false
    (String.toList "avascript-removed:") (by decide) t

theorem mentionSafeRep_unpack (r : List Char) (h : mentionSafeRep r = true) :
    ∃ h0 t2, r = h0 :: t2 ∧ safeHead h0 = true ∧ ∀ x ∈ r, (x != '<') = true := by
  cases r with
  | nil => simp [mentionSafeRep] at h
  | cons a b =>
    have h2 : safeHead a = true ∧ ((a :: b).all fun x => x != '<') = true := by
      simpa [mentionSafeRep] using h
    exact ⟨a, b, rfl, h2.1, fun x hx => (List.all_eq_true.mp h2.2) x hx⟩

theorem jsSafeRep_unpack (r : List Char) (h : jsSafeRep r = true) :
    ∃ h0 t2, r = h0 :: t2 ∧ safeHead h0 = true ∧ ∀ x ∈ r, (!ciEqChar 'j' x) = true := by
  cases r with
  | nil => simp [jsSafeRep] at h
  | cons a b =>
    have h2 : safeHead a = true ∧ ((a :: b).all fun x => !ciEqChar 'j' x) = true := by
      simpa [jsSafeRep] using h
    exact ⟨a, b, rfl, h2.1, fun x hx => (List.all_eq_true.mp h2.2) x hx⟩

theorem containsUser_scan (core : Bool → Char → List Char → Option Nat) (rep0 : List Char)
    (hrep : mentionSafeRep rep0 = true) :
    ∀ n (l : List Char) (p : Bool), l.length ≤ n →
      containsMatch matchUser l = false →
      containsMatch matchUser (scanB (fixedRep rep0 core) p l) = false := by
  obtain ⟨h0, t2, hr0, hsafe, hall⟩ := mentionSafeRep_unpack rep0 hrep
  have hfix : ∀ (p : Bool) (c : Char) (cs : List Char) out,
      fixedRep rep0 core p c cs = some out → out.1 = rep0 :=
    fun p c cs out hout => fixedRep_some rep0 core p c cs out hout
  have htr : safeHeaded (fixedRep rep0 core) := fun p c cs out hout =>
    ⟨h0, t2, by rw [hfix p c cs out hout, hr0], hsafe⟩
  have hseam := containsMatch_append_ok matchUser (fun x => x != '<')
    matchUser_head_false rep0 hall
  intro n
  induction n with
  | zero =>
    intro l p hl _
    have hnil : l = [] := List.length_eq_zero.mp (Nat.le_zero.mp hl)
    subst hnil
    rw [scanB_nil]
    rfl
  | succ n ih =>
    intro l p hl hcont
    cases l with
    | nil => rw [scanB_nil]; rfl
    | cons c cs =>
      have hcs : cs.length ≤ n := by simpa using hl
      have hcont_cs : containsMatch matchUser cs = false := containsMatch_tail _ c cs hcont
      have hmc : matchUser (c :: cs) = false := by
        rw [containsMatch_cons] at hcont
        exact (Bool.or_eq_false_iff.mp hcont).1
      cases htr2 : fixedRep rep0 core p c cs with
      | none =>
        rw [scanB_cons_none _ p c cs htr2, containsMatch_cons]
        have h2 := ih cs (isWordChar c) hcs hcont_cs
        have h1 : matchUser (c :: scanB (fixedRep rep0 core) (isWordChar c) cs) = false := by
          cases hX : scanB (fixedRep rep0 core) (isWordChar c) cs with
          | nil => simp [matchUser]
          | cons c1 rest1 =>
            by_cases hmu : matchUser (c :: c1 :: rest1) = true
            · have hdec : c = '<' ∧ c1 = '@' ∧ userTail rest1 = true := by
                simpa [matchUser] using hmu
              obtain ⟨cs2, hcseq, hrest1, -⟩ :=
                scanB_cons_inv (fixedRep rep0 core) rep0 h0 t2 hfix hr0
                  cs (isWordChar c) c1 rest1 hX
                  (by rw [hdec.2.1]; exact fun he => (safeHead_facts h0 hsafe).2.1 he.symm)
              have hut : userTail cs2 = true := by
                rw [hrest1] at hdec
                exact userTail_scan (fixedRep rep0 core) htr cs2 (isWordChar c1) hdec.2.2
              have hcontra : matchUser (c :: cs) = true := by
                rw [hcseq, hdec.1, hdec.2.1]
                simp [matchUser, hut]
              rw [hcontra] at hmc
              cases hmc
            · cases hv : matchUser (c :: c1 :: rest1) with
              | false => rfl
              | true => exact absurd hv hmu
        rw [h1, h2]
        rfl
      | some out =>
        obtain ⟨r, kk⟩ := out
        have hfix2 := hfix p c cs (r, kk) htr2
        dsimp only at hfix2
        subst hfix2
        rw [scanB_cons_some _ p c cs _ kk htr2, hseam]
        exact ih (cs.drop kk) (isWordChar ((cs.take kk).getLastD c))
          (le_trans (by rw [List.length_drop]; omega) hcs)
          (containsMatch_drop matchUser kk cs hcont_cs)

theorem containsChan_scan (core : Bool → Char → List Char → Option Nat) (rep0 : List Char)
    (hrep : mentionSafeRep rep0 = true) :
    ∀ n (l : List Char) (p : Bool), l.length ≤ n →
      containsMatch matchChan l = false →
      containsMatch matchChan (scanB (fixedRep rep0 core) p l) = false := by
  obtain ⟨h0, t2, hr0, hsafe, hall⟩ := mentionSafeRep_unpack rep0 hrep
  have hfix : ∀ (p : Bool) (c : Char) (cs : List Char) out,
      fixedRep rep0 core p c cs = some out → out.1 = rep0 :=
    fun p c cs out hout => fixedRep_some rep0 core p c cs out hout
  have htr : safeHeaded (fixedRep rep0 core) := fun p c cs out hout =>
    ⟨h0, t2, by rw [hfix p c cs out hout, hr0], hsafe⟩
  have hseam := containsMatch_append_ok matchChan (fun x => x != '<')
    matchChan_head_false rep0 hall
  intro n
  induction n with
  | zero =>
    intro l p hl _
    have hnil : l = [] := List.length_eq_zero.mp (Nat.le_zero.mp hl)
    subst hnil
    rw [scanB_nil]
    rfl
  | succ n ih =>
    intro l p hl hcont
    cases l with
    | nil => rw [scanB_nil]; rfl
    | cons c cs =>
      have hcs : cs.length ≤ n := by simpa using hl
      have hcont_cs : containsMatch matchChan cs = false := containsMatch_tail _ c cs hcont
      have hmc : matchChan (c :: cs) = false := by
        rw [containsMatch_cons] at hcont
        exact (Bool.or_eq_false_iff.mp hcont).1
      cases htr2 : fixedRep rep0 core p c cs with
      | none =>
        rw [scanB_cons_none _ p c cs htr2, containsMatch_cons]
        have h2 := ih cs (isWordChar c) hcs hcont_cs
        have h1 : matchChan (c :: scanB (fixedRep rep0 core) (isWordChar c) cs) = false := by
          cases hX : scanB (fixedRep rep0 core) (isWordChar c) cs with
          | nil => simp [matchChan]
          | cons c1 rest1 =>
            by_cases hmu : matchChan (c :: c1 :: rest1) = true
            · have hdec : c = '<' ∧ c1 = '#' ∧ snowGt 0 rest1 = true := by
                simpa [matchChan] using hmu
              obtain ⟨cs2, hcseq, hrest1, -⟩ :=
                scanB_cons_inv (fixedRep rep0 core) rep0 h0 t2 hfix hr0
                  cs (isWordChar c) c1 rest1 hX
                  (by rw [hdec.2.1]; exact fun he => (safeHead_facts h0 hsafe).2.2.1 he.symm)
              have hut : snowGt 0 cs2 = true := by
                rw [hrest1] at hdec
                exact snowGt_scan (fixedRep rep0 core) htr cs2.length cs2
                  (isWordChar c1) 0 le_rfl hdec.2.2
              have hcontra : matchChan (c :: cs) = true := by
                rw [hcseq, hdec.1, hdec.2.1]
                simp [matchChan, hut]
              rw [hcontra] at hmc
              cases hmc
            · cases hv : matchChan (c :: c1 :: rest1) with
              | false => rfl
              | true => exact absurd hv hmu
        rw [h1, h2]
        rfl
      | some out =>
        obtain ⟨r, kk⟩ := out
        have hfix2 := hfix p c cs (r, kk) htr2
        dsimp only at hfix2
        subst hfix2
        rw [scanB_cons_some _ p c cs _ kk htr2, hseam]
        exact ih (cs.drop kk) (isWordChar ((cs.take kk).getLastD c))
          (le_trans (by rw [List.length_drop]; omega) hcs)
          (containsMatch_drop matchChan kk cs hcont_cs)

theorem containsRole_scan (core : Bool → Char → List Char → Option Nat) (rep0 : List Char)
    (hrep : mentionSafeRep rep0 = true) :
    ∀ n (l : List Char) (p : Bool), l.length ≤ n →
      containsMatch matchRole l = false →
      containsMatch matchRole (scanB (fixedRep rep0 core) p l) = false := by
  obtain ⟨h0, t2, hr0, hsafe, hall⟩ := mentionSafeRep_unpack rep0 hrep
  have hfix : ∀ (p : Bool) (c : Char) (cs : List Char) out,
      fixedRep rep0 core p c cs = some out → out.1 = rep0 :=
    fun p c cs out hout => fixedRep_some rep0 core p c cs out hout
  have htr : safeHeaded (fixedRep rep0 core) := fun p c cs out hout =>
    ⟨h0, t2, by rw [hfix p c cs out hout, hr0], hsafe⟩
  have hseam := containsMatch_append_ok matchRole (fun x => x != '<')
    matchRole_head_false rep0 hall
  intro n
  induction n with
  | zero =>
    intro l p hl _
    have hnil : l = [] := List.length_eq_zero.mp (Nat.le_zero.mp hl)
    subst hnil
    rw [scanB_nil]
    rfl
  | succ n ih =>
    intro l p hl hcont
    cases l with
    | nil => rw [scanB_nil]; rfl
    | cons c cs =>
      have hcs : cs.length ≤ n := by simpa using hl
      have hcont_cs : containsMatch matchRole cs = false := containsMatch_tail _ c cs hcont
      have hmc : matchRole (c :: cs) = false := by
        rw [containsMatch_cons] at hcont
        exact (Bool.or_eq_false_iff.mp hcont).1
      cases htr2 : fixedRep rep0 core p c cs with
      | none =>
        rw [scanB_cons_none _ p c cs htr2, containsMatch_cons]
        have h2 := ih cs (isWordChar c) hcs hcont_cs
        have h1 : matchRole (c :: scanB (fixedRep rep0 core) (isWordChar c) cs) = false := by
          cases hX : scanB (fixedRep rep0 core) (isWordChar c) cs with
          | nil => simp [matchRole]
          | cons c1 rest1 =>
            cases rest1 with
            | nil =>
              simp [matchRole]
            | cons c2 rest2 =>
              by_cases hmu : matchRole (c :: c1 :: c2 :: rest2) = true
              · have hdec : c = '<' ∧ c1 = '@' ∧ c2 = '&' ∧ snowGt 0 rest2 = true := by
                  simpa [matchRole, and_assoc] using hmu
                obtain ⟨cs2, hcseq, hrest1, -⟩ :=
                  scanB_cons_inv (fixedRep rep0 core) rep0 h0 t2 hfix hr0
                    cs (isWordChar c) c1 (c2 :: rest2) hX
                    (by rw [hdec.2.1]; exact fun he => (safeHead_facts h0 hsafe).2.1 he.symm)
                obtain ⟨cs3, hcseq2, hrest2, -⟩ :=
                  scanB_cons_inv (fixedRep rep0 core) rep0 h0 t2 hfix hr0
                    cs2 (isWordChar c1) c2 rest2 hrest1.symm
                    (by rw [hdec.2.2.1]
                        exact fun he => (safeHead_facts h0 hsafe).2.2.2.1 he.symm)
                have hsg : snowGt 0 cs3 = true := by
                  have := hdec.2.2.2
                  rw [hrest2] at this
                  exact snowGt_scan (fixedRep rep0 core) htr cs3.length cs3
                    (isWordChar c2) 0 le_rfl this
                have hcontra : matchRole (c :: cs) = true := by
                  rw [hcseq, hcseq2, hdec.1, hdec.2.1, hdec.2.2.1]
                  simp [matchRole, hsg]
                rw [hcontra] at hmc
                cases hmc
              · cases hv : matchRole (c :: c1 :: c2 :: rest2) with
                | false => rfl
                | true => exact absurd hv hmu
        rw [h1, h2]
        rfl
      | some out =>
        obtain ⟨r, kk⟩ := out
        have hfix2 := hfix p c cs (r, kk) htr2
        dsimp only at hfix2
        subst hfix2
        rw [scanB_cons_some _ p c cs _ kk htr2, hseam]
        exact ih (cs.drop kk) (isWordChar ((cs.take kk).getLastD c))
          (le_trans (by rw [List.length_drop]; omega) hcs)
          (containsMatch_drop matchRole kk cs hcont_cs)

theorem containsJs_scan (core : Bool → Char → List Char → Option Nat) (rep0 : List Char)
    (hrep : jsSafeRep rep0 = true) :
    ∀ n (l : List Char) (p : Bool), l.length ≤ n →
      containsMatch matchJs l = false →
      containsMatch matchJs (scanB (fixedRep rep0 core) p l) = false := by
  obtain ⟨h0, t2, hr0, hsafe, hall⟩ := jsSafeRep_unpack rep0 hrep
  have hfix : ∀ (p : Bool) (c : Char) (cs : List Char) out,
      fixedRep rep0 core p c cs = some out → out.1 = rep0 :=
    fun p c cs out hout => fixedRep_some rep0 core p c cs out hout
  have htr : safeHeaded (fixedRep rep0 core) := fun p c cs out hout =>
    ⟨h0, t2, by rw [hfix p c cs out hout, hr0], hsafe⟩
  have hseam := containsMatch_append_ok matchJs (fun x => !ciEqChar 'j' x)
    matchJs_head_false rep0 hall
  intro n
  induction n with
  | zero =>
    intro l p hl _
    have hnil : l = [] := List.length_eq_zero.mp (Nat.le_zero.mp hl)
    subst hnil
    rw [scanB_nil]
    rfl
  | succ n ih =>
    intro l p hl hcont
    cases l with
    | nil => rw [scanB_nil]; rfl
    | cons c cs =>
      have hcs : cs.length ≤ n := by simpa using hl
      have hcont_cs : containsMatch matchJs cs = false := containsMatch_tail _ c cs hcont
      have hmc : matchJs (c :: cs) = false := by
        rw [containsMatch_cons] at hcont
        exact (Bool.or_eq_false_iff.mp hcont).1
      cases htr2 : fixedRep rep0 core p c cs with
      | none =>
        rw [scanB_cons_none _ p c cs htr2, containsMatch_cons]
        have h2 := ih cs (isWordChar c) hcs hcont_cs
        have h1 : matchJs (c :: scanB (fixedRep rep0 core) (isWordChar c) cs) = false := by
          by_cases hmu : matchJs (c :: scanB (fixedRep rep0 core) (isWordChar c) cs) = true
          · have hd : ciEqChar 'j' c = true ∧
                ciLit (String.toList "avascript:")
                  (scanB (fixedRep rep0 core) (isWordChar c) cs) = true := by
              have hform := hmu
              unfold matchJs at hform
              rw [show String.toList "javascript:" = 'j' :: String.toList "avascript:"
                from by decide] at hform
              simpa [ciLit] using hform
            have htail := ciLit_scan (fixedRep rep0 core) htr cs.length
              (String.toList "avascript:") cs (isWordChar c) le_rfl
              (fun q hq => hq) hd.2
            have hcontra : matchJs (c :: cs) = true := by
              unfold matchJs
              rw [show String.toList "javascript:" = 'j' :: String.toList "avascript:"
                from by decide]
              show (ciEqChar 'j' c && ciLit (String.toList "avascript:") cs) = true
              rw [hd.1, htail]
              rfl
            rw [hcontra] at hmc
            cases hmc
          · cases hv : matchJs (c :: scanB (fixedRep rep0 core) (isWordChar c) cs) with
            | false => rfl
            | true => exact absurd hv hmu
        rw [h1, h2]
        rfl
      | some out =>
        obtain ⟨r, kk⟩ := out
        have hfix2 := hfix p c cs (r, kk) htr2
        dsimp only at hfix2
        subst hfix2
        rw [scanB_cons_some _ p c cs _ kk htr2, hseam]
        exact ih (cs.drop kk) (isWordChar ((cs.take kk).getLastD c))
          (le_trans (by rw [List.length_drop]; omega) hcs)
          (containsMatch_drop matchJs kk cs hcont_cs)

theorem scanB_user_clears :
    ∀ n (l : List Char) (p : Bool), l.length ≤ n →
      containsMatch matchUser (scanB tryUser p l) = false := by
  have hfix : ∀ (p : Bool) (c : Char) (cs : List Char) out,
      tryUser p c cs = some out → out.1 = String.toList "[User Mention]" :=
    fun p c cs out hout => fixedRep_some _ _ p c cs out hout
  have hr0 : String.toList "[User Mention]" = '[' :: String.toList "User Mention]" := by
    decide
  have htr : safeHeaded tryUser := fun p c cs out hout =>
    ⟨'[', String.toList "User Mention]", by rw [hfix p c cs out hout, hr0], by decide⟩
  have hseam := containsMatch_append_ok matchUser (fun x => x != '<')
    matchUser_head_false (String.toList "[User Mention]") (by decide)
  intro n
  induction n with
  | zero =>
    intro l p hl
    have hnil : l = [] := List.length_eq_zero.mp (Nat.le_zero.mp hl)
    subst hnil
    rw [scanB_nil]
    rfl
  | succ n ih =>
    intro l p hl
    cases l with
    | nil => rw [scanB_nil]; rfl
    | cons c cs =>
      have hcs : cs.length ≤ n := by simpa using hl
      cases htr2 : tryUser p c cs with
      | none =>
        rw [scanB_cons_none _ p c cs htr2, containsMatch_cons]
        have h2 := ih cs (isWordChar c) hcs
        have h1 : matchUser (c :: scanB tryUser (isWordChar c) cs) = false := by
          cases hX : scanB tryUser (isWordChar c) cs with
          | nil => simp [matchUser]
          | cons c1 rest1 =>
            by_cases hmu : matchUser (c :: c1 :: rest1) = true
            · have hdec : c = '<' ∧ c1 = '@' ∧ userTail rest1 = true := by
                simpa [matchUser] using hmu
              obtain ⟨cs2, hcseq, hrest1, -⟩ :=
                scanB_cons_inv tryUser (String.toList "[User Mention]") '['
                  (String.toList "User Mention]") hfix hr0
                  cs (isWordChar c) c1 rest1 hX
                  (by rw [hdec.2.1]; decide)
              have hut : userTail cs2 = true := by
                rw [hrest1] at hdec
                exact userTail_scan tryUser htr cs2 (isWordChar c1) hdec.2.2
              have hmU : matchUser (c :: cs) = true := by
                rw [hcseq, hdec.1, hdec.2.1]
                simp [matchUser, hut]
              have hcore : userCore p c cs = none := by
                unfold tryUser fixedRep at htr2
                exact Option.map_eq_none'.mp htr2
              have hiso := userCore_isSome p c cs
              rw [hcore, hmU] at hiso
              cases hiso
            · cases hv : matchUser (c :: c1 :: rest1) with
              | false => rfl
              | true => exact absurd hv hmu
        rw [h1, h2]
        rfl
      | some out =>
        obtain ⟨r, kk⟩ := out
        have hfix2 := hfix p c cs (r, kk) htr2
        dsimp only at hfix2
        subst hfix2
        rw [scanB_cons_some _ p c cs _ kk htr2, hseam]
        exact ih (cs.drop kk) (isWordChar ((cs.take kk).getLastD c))
          (le_trans (by rw [List.length_drop]; omega) hcs)

theorem scanB_chan_clears :
    ∀ n (l : List Char) (p : Bool), l.length ≤ n →
      containsMatch matchChan (scanB tryChan p l) = false := by
  have hfix : ∀ (p : Bool) (c : Char) (cs : List Char) out,
      tryChan p c cs = some out → out.1 = String.toList "[Channel Mention]" :=
    fun p c cs out hout => fixedRep_some _ _ p c cs out hout
  have hr0 : String.toList "[Channel Mention]" = '[' :: String.toList "Channel Mention]" := by
    decide
  have htr : safeHeaded tryChan := fun p c cs out hout =>
    ⟨'[', String.toList "Channel Mention]", by rw [hfix p c cs out hout, hr0], by decide⟩
  have hseam := containsMatch_append_ok matchChan (fun x => x != '<')
    matchChan_head_false (String.toList "[Channel Mention]") (by decide)
  intro n
  induction n with
  | zero =>
    intro l p hl
    have hnil : l = [] := List.length_eq_zero.mp (Nat.le_zero.mp hl)
    subst hnil
    rw [scanB_nil]
    rfl
  | succ n ih =>
    intro l p hl
    cases l with
    | nil => rw [scanB_nil]; rfl
    | cons c cs =>
      have hcs : cs.length ≤ n := by simpa using hl
      cases htr2 : tryChan p c cs with
      | none =>
        rw [scanB_cons_none _ p c cs htr2, containsMatch_cons]
        have h2 := ih cs (isWordChar c) hcs
        have h1 : matchChan (c :: scanB tryChan (isWordChar c) cs) = false := by
          cases hX : scanB tryChan (isWordChar c) cs with
          | nil => simp [matchChan]
          | cons c1 rest1 =>
            by_cases hmu : matchChan (c :: c1 :: rest1) = true
            · have hdec : c = '<' ∧ c1 = '#' ∧ snowGt 0 rest1 = true := by
                simpa [matchChan] using hmu
              obtain ⟨cs2, hcseq, hrest1, -⟩ :=
                scanB_cons_inv tryChan (String.toList "[Channel Mention]") '['
                  (String.toList "Channel Mention]") hfix hr0
                  cs (isWordChar c) c1 rest1 hX
                  (by rw [hdec.2.1]; decide)
              have hut : snowGt 0 cs2 = true := by
                rw [hrest1] at hdec
                exact snowGt_scan tryChan htr cs2.length cs2 (isWordChar c1) 0 le_rfl hdec.2.2
              have hmU : matchChan (c :: cs) = true := by
                rw [hcseq, hdec.1, hdec.2.1]
                simp [matchChan, hut]
              have hcore : chanCore p c cs = none := by
                unfold tryChan fixedRep at htr2
                exact Option.map_eq_none'.mp htr2
              have hiso := chanCore_isSome p c cs
              rw [hcore, hmU] at hiso
              cases hiso
            · cases hv : matchChan (c :: c1 :: rest1) with
              | false => rfl
              | true => exact absurd hv hmu
        rw [h1, h2]
        rfl
      | some out =>
        obtain ⟨r, kk⟩ := out
        have hfix2 := hfix p c cs (r, kk) htr2
        dsimp only at hfix2
        subst hfix2
        rw [scanB_cons_some _ p c cs _ kk htr2, hseam]
        exact ih (cs.drop kk) (isWordChar ((cs.take kk).getLastD c))
          (le_trans (by rw [List.length_drop]; omega) hcs)

theorem scanB_role_clears :
    ∀ n (l : List Char) (p : Bool), l.length ≤ n →
      containsMatch matchRole (scanB tryRole p l) = false := by
  have hfix : ∀ (p : Bool) (c : Char) (cs : List Char) out,
      tryRole p c cs = some out → out.1 = String.toList "[Role Mention]" :=
    fun p c cs out hout => fixedRep_some _ _ p c cs out hout
  have hr0 : String.toList "[Role Mention]" = '[' :: String.toList "Role Mention]" := by
    decide
  have htr : safeHeaded tryRole := fun p c cs out hout =>
    ⟨'[', String.toList "Role Mention]", by rw [hfix p c cs out hout, hr0], by decide⟩
  have hseam := containsMatch_append_ok matchRole (fun x => x != '<')
    matchRole_head_false (String.toList "[Role Mention]") (by decide)
  intro n
  induction n with
  | zero =>
    intro l p hl
    have hnil : l = [] := List.length_eq_zero.mp (Nat.le_zero.mp hl)
    subst hnil
    rw [scanB_nil]
    rfl
  | succ n ih =>
    intro l p hl
    cases l with
    | nil => rw [scanB_nil]; rfl
    | cons c cs =>
      have hcs : cs.length ≤ n := by simpa using hl
      cases htr2 : tryRole p c cs with
      | none =>
        rw [scanB_cons_none _ p c cs htr2, containsMatch_cons]
        have h2 := ih cs (isWordChar c) hcs
        have h1 : matchRole (c :: scanB tryRole (isWordChar c) cs) = false := by
          cases hX : scanB tryRole (isWordChar c) cs with
          | nil => simp [matchRole]
          | cons c1 rest1 =>
            cases rest1 with
            | nil => simp [matchRole]
            | cons c2 rest2 =>
              by_cases hmu : matchRole (c :: c1 :: c2 :: rest2) = true
              · have hdec : c = '<' ∧ c1 = '@' ∧ c2 = '&' ∧ snowGt 0 rest2 = true := by
                  simpa [matchRole, and_assoc] using hmu
                obtain ⟨cs2, hcseq, hrest1, -⟩ :=
                  scanB_cons_inv tryRole (String.toList "[Role Mention]") '['
                    (String.toList "Role Mention]") hfix hr0
                    cs (isWordChar c) c1 (c2 :: rest2) hX
                    (by rw [hdec.2.1]; decide)
                obtain ⟨cs3, hcseq2, hrest2, -⟩ :=
                  scanB_cons_inv tryRole (String.toList "[Role Mention]") '['
                    (String.toList "Role Mention]") hfix hr0
                    cs2 (isWordChar c1) c2 rest2 hrest1.symm
                    (by rw [hdec.2.2.1]; decide)
                have hsg : snowGt 0 cs3 = true := by
                  have hs2 := hdec.2.2.2
                  rw [hrest2] at hs2
                  exact snowGt_scan tryRole htr cs3.length cs3 (isWordChar c2) 0 le_rfl hs2
                have hmU : matchRole (c :: cs) = true := by
                  rw [hcseq, hcseq2, hdec.1, hdec.2.1, hdec.2.2.1]
                  simp [matchRole, hsg]
                have hcore : roleCore p c cs = none := by
                  unfold tryRole fixedRep at htr2
                  exact Option.map_eq_none'.mp htr2
                have hiso := roleCore_isSome p c cs
                rw [hcore, hmU] at hiso
                cases hiso
              · cases hv : matchRole (c :: c1 :: c2 :: rest2) with
                | false => rfl
                | true => exact absurd hv hmu
        rw [h1, h2]
        rfl
      | some out =>
        obtain ⟨r, kk⟩ := out
        have hfix2 := hfix p c cs (r, kk) htr2
        dsimp only at hfix2
        subst hfix2
        rw [scanB_cons_some _ p c cs _ kk htr2, hseam]
        exact ih (cs.drop kk) (isWordChar ((cs.take kk).getLastD c))
          (le_trans (by rw [List.length_drop]; omega) hcs)

theorem scanB_js_clears :
    ∀ n (l : List Char) (p : Bool), l.length ≤ n →
      containsMatch matchJs (scanB tryJs p l) = false := by
  have hfix : ∀ (p : Bool) (c : Char) (cs : List Char) out,
      tryJs p c cs = some out → out.1 = String.toList "javascript-removed:" :=
    fun p c cs out hout => fixedRep_some _ _ p c cs out hout
  have hr0 : String.toList "javascript-removed:" =
      'j' :: String.toList "avascript-removed:" := by decide
  have htr : safeHeaded tryJs := fun p c cs out hout =>
    ⟨'j', String.toList "avascript-removed:", by rw [hfix p c cs out hout, hr0], by decide⟩
  intro n
  induction n with
  | zero =>
    intro l p hl
    have hnil : l = [] := List.length_eq_zero.mp (Nat.le_zero.mp hl)
    subst hnil
    rw [scanB_nil]
    rfl
  | succ n ih =>
    intro l p hl
    cases l with
    | nil => rw [scanB_nil]; rfl
    | cons c cs =>
      have hcs : cs.length ≤ n := by simpa using hl
      cases htr2 : tryJs p c cs with
      | none =>
        rw [scanB_cons_none _ p c cs htr2, containsMatch_cons]
        have h2 := ih cs (isWordChar c) hcs
        have h1 : matchJs (c :: scanB tryJs (isWordChar c) cs) = false := by
          by_cases hmu : matchJs (c :: scanB tryJs (isWordChar c) cs) = true
          · have hd : ciEqChar 'j' c = true ∧
                ciLit (String.toList "avascript:") (scanB tryJs (isWordChar c) cs) = true := by
              have hform := hmu
              unfold matchJs at hform
              rw [show String.toList "javascript:" = 'j' :: String.toList "avascript:"
                from by decide] at hform
              simpa [ciLit] using hform
            have htail := ciLit_scan tryJs htr cs.length
              (String.toList "avascript:") cs (isWordChar c) le_rfl (fun q hq => hq) hd.2
            have hmU : matchJs (c :: cs) = true := by
              unfold matchJs
              rw [show String.toList "javascript:" = 'j' :: String.toList "avascript:"
                from by decide]
              show (ciEqChar 'j' c && ciLit (String.toList "avascript:") cs) = true
              rw [hd.1, htail]
              rfl
            have hcore : jsCore p c cs = none := by
              unfold tryJs fixedRep at htr2
              exact Option.map_eq_none'.mp htr2
            have hiso := jsCore_isSome p c cs
            rw [hcore, hmU] at hiso
            cases hiso
          · cases hv : matchJs (c :: scanB tryJs (isWordChar c) cs) with
            | false => rfl
            | true => exact absurd hv hmu
        rw [h1, h2]
        rfl
      | some out =>
        obtain ⟨r, kk⟩ := out
        have hfix2 := hfix p c cs (r, kk) htr2
        dsimp only at hfix2
        subst hfix2
        rw [scanB_cons_some _ p c cs _ kk htr2, containsJs_seam_own]
        exact ih (cs.drop kk) (isWordChar ((cs.take kk).getLastD c))
          (le_trans (by rw [List.length_drop]; omega) hcs)

/-- C8 (amended): for every input, the `sanitizeContent` output
contains no substring matching the source mention patterns
`<@!?\d{17,19}>`, `<#\d{17,19}>`, `<@&\d{17,19}>`, and no occurrence
of the literal `javascript:` in any letter case.  The mention passes
remove every such match, and each later pass only substitutes
replacement strings that can neither contain nor complete one of these
patterns.  The original claim's unbounded `\d+` patterns do survive,
as the counterexample shows. -/
theorem sanitizeContent_clears (l : List Char) :
    containsMatch matchUser (sanitizeContent l) = false ∧
    containsMatch matchChan (sanitizeContent l) = false ∧
    containsMatch matchRole (sanitizeContent l) = false ∧
    containsMatch matchJs (sanitizeContent l) = false := by
  unfold sanitizeContent
  have hU1 : containsMatch matchUser (scanB tryUser false l) = false :=
    scanB_user_clears (l).length l false le_rfl
  generalize hg1 : scanB tryUser false l = T1 at hU1 ⊢
  have hU2 : containsMatch matchUser (scanB tryChan false T1) = false :=
    containsUser_scan chanCore (String.toList "[Channel Mention]") (by decide)
      (T1).length T1 false le_rfl hU1
  have hC2 : containsMatch matchChan (scanB tryChan false T1) = false :=
    scanB_chan_clears (T1).length T1 false le_rfl
  generalize hg2 : scanB tryChan false T1 = T2 at hU2 hC2 ⊢
  have hU3 : containsMatch matchUser (scanB tryRole false T2) = false :=
    containsUser_scan roleCore (String.toList "[Role Mention]") (by decide)
      (T2).length T2 false le_rfl hU2
  have hC3 : containsMatch matchChan (scanB tryRole false T2) = false :=
    containsChan_scan roleCore (String.toList "[Role Mention]") (by decide)
      (T2).length T2 false le_rfl hC2
  have hR3 : containsMatch matchRole (scanB tryRole false T2) = false :=
    scanB_role_clears (T2).length T2 false le_rfl
  generalize hg3 : scanB tryRole false T2 = T3 at hU3 hC3 hR3 ⊢
  have hU4 : containsMatch matchUser (scanB tryEmoji false T3) = false :=
    containsUser_scan emojiCore (String.toList "[Emoji]") (by decide)
      (T3).length T3 false le_rfl hU3
  have hC4 : containsMatch matchChan (scanB tryEmoji false T3) = false :=
    containsChan_scan emojiCore (String.toList "[Emoji]") (by decide)
      (T3).length T3 false le_rfl hC3
  have hR4 : containsMatch matchRole (scanB tryEmoji false T3) = false :=
    containsRole_scan emojiCore (String.toList "[Emoji]") (by decide)
      (T3).length T3 false le_rfl hR3
  generalize hg4 : scanB tryEmoji false T3 = T4 at hU4 hC4 hR4 ⊢
  have hU5 : containsMatch matchUser (scanB tryTimestamp false T4) = false :=
    containsUser_scan tsCore (String.toList "[Timestamp]") (by decide)
      (T4).length T4 false le_rfl hU4
  have hC5 : containsMatch matchChan (scanB tryTimestamp false T4) = false :=
    containsChan_scan tsCore (String.toList "[Timestamp]") (by decide)
      (T4).length T4 false le_rfl hC4
  have hR5 : containsMatch matchRole (scanB tryTimestamp false T4) = false :=
    containsRole_scan tsCore (String.toList "[Timestamp]") (by decide)
      (T4).length T4 false le_rfl hR4
  generalize hg5 : scanB tryTimestamp false T4 = T5 at hU5 hC5 hR5 ⊢
  have hU6 : containsMatch matchUser (scanB tryScript false T5) = false :=
    containsUser_scan scriptCore (String.toList "[Removed Script]") (by decide)
      (T5).length T5 false le_rfl hU5
  have hC6 : containsMatch matchChan (scanB tryScript false T5) = false :=
    containsChan_scan scriptCore (String.toList "[Removed Script]") (by decide)
      (T5).length T5 false le_rfl hC5
  have hR6 : containsMatch matchRole (scanB tryScript false T5) = false :=
    containsRole_scan scriptCore (String.toList "[Removed Script]") (by decide)
      (T5).length T5 false le_rfl hR5
  generalize hg6 : scanB tryScript false T5 = T6 at hU6 hC6 hR6 ⊢
  have hU7 : containsMatch matchUser (scanB tryJs false T6) = false :=
    containsUser_scan jsCore (String.toList "javascript-removed:") (by decide)
      (T6).length T6 false le_rfl hU6
  have hC7 : containsMatch matchChan (scanB tryJs false T6) = false :=
    containsChan_scan jsCore (String.toList "javascript-removed:") (by decide)
      (T6).length T6 false le_rfl hC6
  have hR7 : containsMatch matchRole (scanB tryJs false T6) = false :=
    containsRole_scan jsCore (String.toList "javascript-removed:") (by decide)
      (T6).length T6 false le_rfl hR6
  have hJ7 : containsMatch matchJs (scanB tryJs false T6) = false :=
    scanB_js_clears (T6).length T6 false le_rfl
  generalize hg7 : scanB tryJs false T6 = T7 at hU7 hC7 hR7 hJ7 ⊢
  have hU8 : containsMatch matchUser (scanB tryOnEvent false T7) = false :=
    containsUser_scan onEventCore (String.toList " data-removed-event=") (by decide)
      (T7).length T7 false le_rfl hU7
  have hC8 : containsMatch matchChan (scanB tryOnEvent false T7) = false :=
    containsChan_scan onEventCore (String.toList " data-removed-event=") (by decide)
      (T7).length T7 false le_rfl hC7
  have hR8 : containsMatch matchRole (scanB tryOnEvent false T7) = false :=
    containsRole_scan onEventCore (String.toList " data-removed-event=") (by decide)
      (T7).length T7 false le_rfl hR7
  have hJ8 : containsMatch matchJs (scanB tryOnEvent false T7) = false :=
    containsJs_scan onEventCore (String.toList " data-removed-event=") (by decide)
      (T7).length T7 false le_rfl hJ7
  generalize hg8 : scanB tryOnEvent false T7 = T8 at hU8 hC8 hR8 hJ8 ⊢
  have hU9 : containsMatch matchUser (scanB tryEmail false T8) = false :=
    containsUser_scan emailCore (String.toList "[Email Redacted]") (by decide)
      (T8).length T8 false le_rfl hU8
  have hC9 : containsMatch matchChan (scanB tryEmail false T8) = false :=
    containsChan_scan emailCore (String.toList "[Email Redacted]") (by decide)
      (T8).length T8 false le_rfl hC8
  have hR9 : containsMatch matchRole (scanB tryEmail false T8) = false :=
    containsRole_scan emailCore (String.toList "[Email Redacted]") (by decide)
      (T8).length T8 false le_rfl hR8
  have hJ9 : containsMatch matchJs (scanB tryEmail false T8) = false :=
    containsJs_scan emailCore (String.toList "[Email Redacted]") (by decide)
      (T8).length T8 false le_rfl hJ8
  generalize hg9 : scanB tryEmail false T8 = T9 at hU9 hC9 hR9 hJ9 ⊢
  have hU10 : containsMatch matchUser (scanB tryPhone false T9) = false :=
    containsUser_scan phoneCore (String.toList "[Phone Redacted]") (by decide)
      (T9).length T9 false le_rfl hU9
  have hC10 : containsMatch matchChan (scanB tryPhone false T9) = false :=
    containsChan_scan phoneCore (String.toList "[Phone Redacted]") (by decide)
      (T9).length T9 false le_rfl hC9
  have hR10 : containsMatch matchRole (scanB tryPhone false T9) = false :=
    containsRole_scan phoneCore (String.toList "[Phone Redacted]") (by decide)
      (T9).length T9 false le_rfl hR9
  have hJ10 : containsMatch matchJs (scanB tryPhone false T9) = false :=
    containsJs_scan phoneCore (String.toList "[Phone Redacted]") (by decide)
      (T9).length T9 false le_rfl hJ9
  generalize hg10 : scanB tryPhone false T9 = T10 at hU10 hC10 hR10 hJ10 ⊢
  have hU11 : containsMatch matchUser (scanB trySsn false T10) = false :=
    containsUser_scan ssnCore (String.toList "[SSN Redacted]") (by decide)
      (T10).length T10 false le_rfl hU10
  have hC11 : containsMatch matchChan (scanB trySsn false T10) = false :=
    containsChan_scan ssnCore (String.toList "[SSN Redacted]") (by decide)
      (T10).length T10 false le_rfl hC10
  have hR11 : containsMatch matchRole (scanB trySsn false T10) = false :=
    containsRole_scan ssnCore (String.toList "[SSN Redacted]") (by decide)
      (T10).length T10 false le_rfl hR10
  have hJ11 : containsMatch matchJs (scanB trySsn false T10) = false :=
    containsJs_scan ssnCore (String.toList "[SSN Redacted]") (by decide)
      (T10).length T10 false le_rfl hJ10
  generalize hg11 : scanB trySsn false T10 = T11 at hU11 hC11 hR11 hJ11 ⊢
  have hU12 : containsMatch matchUser (scanB tryCard false T11) = false :=
    containsUser_scan cardCore (String.toList "[Card Number Redacted]") (by decide)
      (T11).length T11 false le_rfl hU11
  have hC12 : containsMatch matchChan (scanB tryCard false T11) = false :=
    containsChan_scan cardCore (String.toList "[Card Number Redacted]") (by decide)
      (T11).length T11 false le_rfl hC11
  have hR12 : containsMatch matchRole (scanB tryCard false T11) = false :=
    containsRole_scan cardCore (String.toList "[Card Number Redacted]") (by decide)
      (T11).length T11 false le_rfl hR11
  have hJ12 : containsMatch matchJs (scanB tryCard false T11) = false :=
    containsJs_scan cardCore (String.toList "[Card Number Redacted]") (by decide)
      (T11).length T11 false le_rfl hJ11
  generalize hg12 : scanB tryCard false T11 = T12 at hU12 hC12 hR12 hJ12 ⊢
  exact ⟨hU12, hC12, hR12, hJ12⟩

set_option maxRecDepth 400000 in
/-- C7: counterexample.  The pipeline is not idempotent on its html
output: on the input `http://a` the first application wraps the URL in
an anchor tag, and the URL pass of the second application rewrites the
`http` occurrences inside that markup, so the html changes again. -/
theorem sanitizeHtml_not_idempotent :
    sanitizeHtml (sanitizeHtml (String.toList "http://a")) ≠
      sanitizeHtml (String.toList "http://a") := by decide

/-- C7 (amended): on strings of lowercase ASCII letters and spaces
every pass of both stages fails at every position, so the pipeline is
the identity there and in particular idempotent on its html output. -/
theorem sanitizeHtml_idempotent_on_plain (l : List Char) (h : allPlain l = true) :
    sanitizeHtml (sanitizeHtml l) = sanitizeHtml l := by
  rw [sanitizeHtml_plain l h, sanitizeHtml_plain l h]

/-- Witness: the amended idempotence theorem applied at `hello world`. -/
theorem sanitizeHtml_idempotent_on_plain_witness :
    allPlain (String.toList "hello world") = true ∧
      sanitizeHtml (sanitizeHtml (String.toList "hello world")) =
        sanitizeHtml (String.toList "hello world") :=
  ⟨by decide, sanitizeHtml_idempotent_on_plain (String.toList "hello world") (by decide)⟩

/-- C8: counterexample to the claimed pattern family.  The input
`<@123>` passes through `sanitizeContent` unchanged because the source
regex requires a 17 to 19 digit id, yet the output matches the claimed
unbounded pattern `<@!?\d+>`. -/
theorem sanitizeContent_escape_counterexample :
    sanitizeContent (String.toList "<@123>") = String.toList "<@123>" ∧
      containsMatch matchUserAny (sanitizeContent (String.toList "<@123>")) = true :=
  ⟨by decide, by decide⟩
